import Mathlib

/-!
Verification development for the incremental graphicness-certification engine
of cmr (src/src/cmr/regular_graphic.c).  The C functions are shallowly
embedded as executable Lean functions over explicit state; machine arrays
become lists, in-place mutation becomes state passing, and C assertions
become Option-valued guards (none models an assertion failure).
-/

set_option maxRecDepth 20000

namespace CMRGraphic

/-- Modelled from the spec: an element identifier is a tagged value
distinguishing row r from column c, with 0 reserved for none/invalid
(the element type and its conversions live outside the sampled sources).
Rows are encoded as negative integers and columns as positive integers. -/
def CMRrowToElement (row : Nat) : Int := -1 - (row : Int)

/-- Modelled from the spec: column c is encoded as the positive integer c+1. -/
def CMRcolumnToElement (column : Nat) : Int := (column : Int) + 1

/-- Modelled from the spec: 0 is the reserved invalid element. -/
def CMRelementIsValid (e : Int) : Bool := e ≠ 0

/-- Modelled from the spec: negative encodings are row elements. -/
def CMRelementIsRow (e : Int) : Bool := e < 0

/-- Modelled from the spec: inverse of the row encoding. -/
def CMRelementToRowIndex (e : Int) : Nat := (-1 - e).toNat

/-- Modelled from the spec: inverse of the column encoding. -/
def CMRelementToColumnIndex (e : Int) : Nat := (e - 1).toNat

/-- Modelled from the spec: transposing exchanges the row/column tags,
which for the chosen integer encoding is negation. -/
def CMRelementTranspose (e : Int) : Int := -e

/-- Modelled from the spec: the witness-graph abstraction offers add-node,
add-edge returning a stable edge identifier, delete-edge and forward
iteration over incident edges and over all nodes/edges.  Nodes are dense
indices 0..numNodes-1 and are never deleted; edge identifiers index into
edgeSlots, deleted identifiers are kept on a most-recently-freed-first
list and reused by the next add-edge, so that a delete immediately
followed by an add preserves the edge identifier, as the engine asserts. -/
structure CMRGraph where
  numNodes : Nat
  edgeSlots : List (Option (Nat × Nat))
  freed : List Nat
deriving DecidableEq

/-- Modelled from the spec: add-node returns the next dense node index. -/
def CMRgraphAddNode (g : CMRGraph) : CMRGraph × Nat :=
  ({ g with numNodes := g.numNodes + 1 }, g.numNodes)

/-- Modelled from the spec: add-edge reuses the most recently freed edge
slot when one exists, otherwise appends a fresh slot. -/
def CMRgraphAddEdge (g : CMRGraph) (u v : Nat) : CMRGraph × Nat :=
  match g.freed with
  | [] => ({ g with edgeSlots := g.edgeSlots ++ [some (u, v)] }, g.edgeSlots.length)
  | e :: rest => ({ g with edgeSlots := g.edgeSlots.set e (some (u, v)), freed := rest }, e)

/-- Modelled from the spec: delete-edge clears the slot and pushes the
identifier on the reuse list. -/
def CMRgraphDeleteEdge (g : CMRGraph) (e : Nat) : CMRGraph :=
  { g with edgeSlots := g.edgeSlots.set e none, freed := e :: g.freed }

/-- Size of the node array (scratch arrays in the C code are allocated
with this bound). -/
def CMRgraphMemNodes (g : CMRGraph) : Nat := g.numNodes

/-- Size of the edge array. -/
def CMRgraphMemEdges (g : CMRGraph) : Nat := g.edgeSlots.length

/-- Number of live (non-deleted) edges. -/
def CMRgraphNumEdges (g : CMRGraph) : Nat :=
  (g.edgeSlots.filter (fun s => s.isSome)).length

/-- First endpoint of an edge. -/
def CMRgraphEdgeU (g : CMRGraph) (e : Nat) : Nat :=
  ((g.edgeSlots.getD e none).getD (0, 0)).1

/-- Second endpoint of an edge. -/
def CMRgraphEdgeV (g : CMRGraph) (e : Nat) : Nat :=
  ((g.edgeSlots.getD e none).getD (0, 0)).2

/-- Modelled from the spec: forward iteration over the incidence list of a
node, yielding pairs of an edge identifier with the opposite endpoint, in
increasing order of edge identifiers. -/
def CMRgraphInc (g : CMRGraph) (v : Nat) : List (Nat × Nat) :=
  (List.range g.edgeSlots.length).filterMap (fun e =>
    match g.edgeSlots.getD e none with
    | none => none
    | some (a, b) =>
      if a = v then some (e, b) else if b = v then some (e, a) else none)

/-- The empty graph produced by CMRgraphCreateEmpty (capacities are
irrelevant in the embedding). -/
def emptyGraph : CMRGraph := { numNodes := 0, edgeSlots := [], freed := [] }

/-- Compressed-sparse-row matrix as used by the engine: rowSlice gives for
each row the first index into entryColumns, and entryValues carries the
(unused here) numerical entries. -/
structure CMR_CHRMAT where
  numRows : Nat
  numColumns : Nat
  rowSlice : List Nat
  entryColumns : List Nat
  entryValues : List Int
deriving DecidableEq

/-- The list of nonzero column indices of one row, i.e. the entries of
entryColumns between rowSlice row and rowSlice (row+1). -/
def rowEntries (m : CMR_CHRMAT) (row : Nat) : List Nat :=
  (m.entryColumns.drop (m.rowSlice.getD row 0)).take
    (m.rowSlice.getD (row + 1) 0 - m.rowSlice.getD row 0)

/-! Hash oracle.  The external projectSignedHash function (wraparound onto a
bounded signed domain, not among the sampled sources) is kept as a
parameter proj of the embedding. -/

/-- Translation of createHashVector: weights follow the multiplicative
recurrence h ↦ proj (3 h) starting from 1. -/
def createHashVector (proj : Int → Int) (size : Nat) : List Int :=
  ((List.range size).foldl (fun (p : List Int × Int) _ =>
    (p.1 ++ [p.2], proj (3 * p.2))) ([], 1)).1

/-- The additive rolling hash of a list of minor indices: the fold of
h ↦ proj (h + weight) over the list, starting from 0. -/
def hashOfList (proj : Int → Int) (hv : List Int) (l : List Nat) : Int :=
  l.foldl (fun h c => proj (h + hv.getD c 0)) 0

/-- Translation of updateHashValues: for every new major index, add the
weights of its minor partners (scanned until the first partner at or past
minorSize, relying on sortedness) into both the major accumulator and each
touched minor accumulator. -/
def updateHashValues (proj : Int → Int) (m : CMR_CHRMAT)
    (majorHashValues minorHashValues : List Int) (hv : List Int)
    (majorFirst majorBeyond minorSize : Nat) : List Int × List Int :=
  (List.range' majorFirst (majorBeyond - majorFirst)).foldl
    (fun (p : List Int × List Int) major =>
      ((rowEntries m major).takeWhile (fun minor => minor < minorSize)).foldl
        (fun (q : List Int × List Int) minor =>
          (q.1.set major (proj (q.1.getD major 0 + hv.getD minor 0)),
           q.2.set minor (proj (q.2.getD minor 0 + hv.getD major 0)))) p)
    (majorHashValues, minorHashValues)

/-- The lockstep entry comparison of findParallel: walk both entry lists in
parallel, stopping with success as soon as both entries are at or past
numColumns or either list is exhausted, and failing on the first mismatch. -/
def entriesLockstepMatch (numColumns : Nat) : List Nat → List Nat → Bool
  | c :: cs, c2 :: cs2 =>
    if numColumns ≤ c ∧ numColumns ≤ c2 then true
    else if c ≠ c2 then false
    else entriesLockstepMatch numColumns cs cs2
  | _, _ => true

/-- The scan of findParallel over previously processed rows: the first row
whose stored hash equals the query hash and whose entries pass the lockstep
comparison is returned as a row element; 0 if none does. -/
def findParallelScan (m : CMR_CHRMAT) (hashValue : Int) (ents : List Nat)
    (numColumns : Nat) (rowHashValues : List Int) : Nat → Nat → Int
  | 0, _ => 0
  | n + 1, row2 =>
    if rowHashValues.getD row2 0 = hashValue ∧
        entriesLockstepMatch numColumns ents (rowEntries m row2) = true then
      CMRrowToElement row2
    else findParallelScan m hashValue ents numColumns rowHashValues n (row2 + 1)

/-- Translation of findParallel.  The C function asserts at least one
nonzero in the processed column prefix; the assertion failure is modelled
as none.  With exactly one prefix nonzero the column element of the row's
first entry is returned directly, otherwise the hash-filtered scan runs. -/
def findParallel (proj : Int → Int) (m : CMR_CHRMAT) (row numRows numColumns : Nat)
    (rowHashValues hv : List Int) : Option Int :=
  let ents := rowEntries m row
  let restricted := ents.takeWhile (fun c => c < numColumns)
  let hashValue := hashOfList proj hv restricted
  if restricted.length = 0 then none
  else if restricted.length = 1 then some (CMRcolumnToElement (ents.headD 0))
  else some (findParallelScan m hashValue ents numColumns rowHashValues numRows 0)

/-! Graph-state utilities: articulation points, tree parents, connected
components, bipartition.  The recursive DFS procedures are embedded with a
fuel argument; since every recursive call visits a previously unvisited
node, fuel numNodes+1 always suffices and the embeddings below are always
invoked with that fuel. -/

/-- State of the articulation-point DFS: visited flags, discovery times,
the running clock, and the candidate array (written as 1 for articulation
points; the caller reuses the same array as a counter afterwards). -/
structure APState where
  visited : List Bool
  disc : List Int
  time : Int
  cand : List Nat
deriving DecidableEq

/-- The loop body of dfsArticulationPoint over one incidence-list entry:
skip disabled edges, take back-edge discovery times into the low-link, and
recurse into unvisited neighbours, marking node as an articulation point
when the child cannot reach above it. -/
def dfsAPVisit (edgesEnabled : List Bool)
    (recur : Nat → Int → APState → APState × Int)
    (node : Nat) (parentNode : Int) (discNode : Int)
    (acc : APState × Int × Nat) (p : Nat × Nat) : APState × Int × Nat :=
  if edgesEnabled.getD p.1 false = true then
    let v := p.2
    if acc.1.visited.getD v false = true then
      if (v : Int) ≠ parentNode ∧ acc.1.disc.getD v 0 < acc.2.1 then
        (acc.1, acc.1.disc.getD v 0, acc.2.2)
      else acc
    else
      let res := recur v (node : Int) acc.1
      let stC :=
        if 0 ≤ parentNode ∧ discNode ≤ res.2 then
          { res.1 with cand := res.1.cand.set node 1 }
        else res.1
      (stC, min acc.2.1 res.2, acc.2.2 + 1)
  else acc

/-- Translation of dfsArticulationPoint: depth-first discovery/low-link
computation over the graph restricted to enabled edges, marking node as an
articulation point when some child cannot reach above it (or, for the
root, when it has more than one child), and returning the earliest
reachable discovery time. -/
def dfsArticulationPoint (g : CMRGraph) (edgesEnabled : List Bool) :
    Nat → Nat → Int → APState → APState × Int
  | 0, _, _, st => (st, 0)
  | fuel + 1, node, parentNode, st =>
    let stA : APState := { st with visited := st.visited.set node true, time := st.time + 1 }
    let stB : APState := { stA with disc := stA.disc.set node stA.time }
    let discNode := stB.time
    let r := (CMRgraphInc g node).foldl
      (dfsAPVisit edgesEnabled (dfsArticulationPoint g edgesEnabled fuel) node
        parentNode discNode)
      (stB, (discNode, 0))
    let stD :=
      if parentNode < 0 ∧ 1 < r.2.2 then { r.1 with cand := r.1.cand.set node 1 } else r.1
    (stD, r.2.1)

/-- Translation of findArticulationPoints: enable all live edges except the
column edges of the nonzero columns, then run the articulation DFS from the
first node, returning the candidate array. -/
def findArticulationPoints (g : CMRGraph) (columnEdges : List Nat)
    (nonzeroColumns : List Nat) : List Nat :=
  let enabled0 := (List.range (CMRgraphMemEdges g)).map
    (fun e => (g.edgeSlots.getD e none).isSome)
  let enabled := nonzeroColumns.foldl
    (fun en c => en.set (columnEdges.getD c 0) false) enabled0
  let init : APState :=
    { visited := List.replicate g.numNodes false
      disc := List.replicate g.numNodes 0
      time := 0
      cand := List.replicate g.numNodes 0 }
  (dfsArticulationPoint g enabled (g.numNodes + 1) 0 (-1) init).1.cand

/-- Translation of dfsTree: depth-first traversal along enabled tree edges
recording the parent of every newly visited node. -/
def dfsTree (g : CMRGraph) (edgesTree : List Bool) :
    Nat → Nat → (List Bool × List Int) → List Bool × List Int
  | 0, _, st => st
  | fuel + 1, node, st =>
    (CMRgraphInc g node).foldl
      (fun (acc : List Bool × List Int) (p : Nat × Nat) =>
        if edgesTree.getD p.1 false = true then
          if acc.1.getD p.2 false = true then acc
          else dfsTree g edgesTree fuel p.2 (acc.1, acc.2.set p.2 (node : Int))
        else acc)
      (st.1.set node true, st.2)

/-- Translation of findTreeParents: enable exactly the row edges and run
the parent-recording DFS from the first node with parent -1.  The C code
leaves entries of unreached nodes uninitialised; the embedding models them
as -1. -/
def findTreeParents (g : CMRGraph) (rowEdges : List Nat) (numRows : Nat) : List Int :=
  let edgesTree := (List.range numRows).foldl
    (fun et r => et.set (rowEdges.getD r 0) true)
    (List.replicate (CMRgraphMemEdges g) false)
  (dfsTree g edgesTree (g.numNodes + 1) 0
    (List.replicate g.numNodes false, (List.replicate g.numNodes (-1 : Int)).set 0 (-1))).2

/-- Translation of dfsComponents: flood-fill of one component along enabled
edges, labelling nodes with the component index. -/
def dfsComponents (g : CMRGraph) (edgesEnabled : List Bool) (component : Nat) :
    Nat → Nat → List (Option Nat) → List (Option Nat)
  | 0, _, comp => comp
  | fuel + 1, node, comp =>
    (CMRgraphInc g node).foldl
      (fun (acc : List (Option Nat)) (p : Nat × Nat) =>
        if edgesEnabled.getD p.1 false = true then
          if (acc.getD p.2 none).isSome then acc
          else dfsComponents g edgesEnabled component fuel p.2 acc
        else acc)
      (comp.set node (some component))

/-- Translation of findComponents: disable the edges incident to the
removed node and the column edges of the nonzero columns, then label the
connected components of all remaining nodes in discovery order; the
removed node keeps no label.  The C code represents the missing label by
SIZE_MAX, modelled here as none. -/
def findComponents (g : CMRGraph) (columnEdges : List Nat) (removedNode : Int)
    (nonzeroColumns : List Nat) : List (Option Nat) × Nat :=
  let enabled0 := (List.range (CMRgraphMemEdges g)).map
    (fun e => (g.edgeSlots.getD e none).isSome)
  let enabled1 :=
    if 0 ≤ removedNode then
      (CMRgraphInc g removedNode.toNat).foldl (fun en p => en.set p.1 false) enabled0
    else enabled0
  let enabled := nonzeroColumns.foldl
    (fun en c => en.set (columnEdges.getD c 0) false) enabled1
  (List.range g.numNodes).foldl
    (fun (acc : List (Option Nat) × Nat) source =>
      if (acc.1.getD source none).isSome ∨ (source : Int) = removedNode then acc
      else (dfsComponents g enabled acc.2 (g.numNodes + 1) source acc.1, acc.2 + 1))
    (List.replicate g.numNodes (none : Option Nat), 0)

/-- Translation of dfsBipartite: 2-colouring DFS that fails as soon as two
adjacent nodes carry the same colour. -/
def dfsBipartite (g : CMRGraph) :
    Nat → Nat → (List Bool × List Int) → (List Bool × List Int) × Bool
  | 0, _, st => (st, true)
  | fuel + 1, node, st =>
    (CMRgraphInc g node).foldl
      (fun (acc : (List Bool × List Int) × Bool) (p : Nat × Nat) =>
        if acc.2 = false then acc
        else
          let v := p.2
          if acc.1.1.getD v false = true then
            if acc.1.2.getD v 0 = acc.1.2.getD node 0 then (acc.1, false) else acc
          else
            dfsBipartite g fuel v (acc.1.1, acc.1.2.set v (1 - acc.1.2.getD node 0)))
      ((st.1.set node true, st.2), true)

/-- Translation of findBipartition: 2-colour every component, stopping at
the first odd cycle; returns the colouring and whether the graph is
bipartite. -/
def findBipartition (g : CMRGraph) : List Int × Bool :=
  let r := (List.range g.numNodes).foldl
    (fun (acc : (List Bool × List Int) × Bool) source =>
      if acc.2 = false then acc
      else if acc.1.1.getD source false = true then acc
      else dfsBipartite g (g.numNodes + 1) source (acc.1.1, acc.1.2.set source 0))
    ((List.replicate g.numNodes false, List.replicate g.numNodes (0 : Int)), true)
  (r.1.2, r.2)

/-! The general one-row handler addToGraph1Row. -/

/-- The upward walk v, parent v, parent (parent v), ... stopping at the
first negative value, as pushed on a node stack by addToGraph1Row.  The C
stack has capacity baseNumRows+1, which is passed as the fuel. -/
def parentWalk (parents : List Int) : Nat → Int → List Nat
  | 0, _ => []
  | fuel + 1, v =>
    if v < 0 then []
    else v.toNat :: parentWalk parents fuel (parents.getD v.toNat (-1))

/-- Length of the common tail (towards the root) of two upward walks, as
removed by the pruning loop of addToGraph1Row. -/
def commonTailLength (w0 w1 : List Nat) : Nat :=
  ((w0.reverse.zip w1.reverse).takeWhile (fun p => p.1 = p.2)).length

/-- The node multiset inspected by the marking loop of addToGraph1Row for
one column edge with endpoints u and v: both pruned stacks, where stack 0
keeps one extra entry (the meeting node). -/
def prunedPathNodes (parents : List Int) (fuel u v : Nat) : List Nat :=
  let w0 := parentWalk parents fuel (u : Int)
  let w1 := parentWalk parents fuel (v : Int)
  let k := commonTailLength w0 w1
  w0.take (w0.length - k + 1) ++ w1.take (w1.length - k)

/-- One iteration of the candidate-marking loop of addToGraph1Row: along
the path of 1-edge i, every node whose counter equals i+1 is bumped to i+2,
counted, and remembered as the split node. -/
def markPath (i : Nat) (cand : List Nat) (split : Int) (path : List Nat) :
    List Nat × Nat × Int :=
  path.foldl
    (fun (a : List Nat × Nat × Int) v =>
      if a.1.getD v 0 = i + 1 then (a.1.set v (i + 2), a.2.1 + 1, (v : Int))
      else a)
    (cand, 0, split)

/-- The candidate-marking loop of addToGraph1Row over the paths of all
1-edges, breaking as soon as an iteration leaves no candidate. -/
def markLoop : List (List Nat) → Nat → List Nat → Nat → Int → List Nat × Nat × Int
  | [], _, cand, count, split => (cand, count, split)
  | p :: rest, i, cand, _, split =>
    let r := markPath i cand split p
    if r.2.1 = 0 then (r.1, 0, r.2.2)
    else markLoop rest (i + 1) r.1 r.2.1 r.2.2

/-- The auxiliary graph of addToGraph1Row: one node per connected
component and, for every 1-edge whose endpoints both carry component
labels, an edge joining the two component nodes. -/
def buildAuxiliaryGraph (g : CMRGraph) (columnEdges : List Nat)
    (nonzeroColumns : List Nat) (comps : List (Option Nat))
    (numComponents : Nat) : CMRGraph :=
  let g1 := (List.range numComponents).foldl (fun gg _ => (CMRgraphAddNode gg).1) emptyGraph
  nonzeroColumns.foldl
    (fun gg c =>
      let e := columnEdges.getD c 0
      match comps.getD (CMRgraphEdgeU g e) none, comps.getD (CMRgraphEdgeV g e) none with
      | some c0, some c1 => (CMRgraphAddEdge gg c0 c1).1
      | _, _ => gg)
    g1

/-- The committing rewrite of addToGraph1Row on success: add the sister
node, and re-hang every edge incident to the split node whose (for
1-edges complemented) bipartition side is 1 onto the sister node, reusing
the edge identifier; finally join split node and sister node by the new
row edge. -/
def performSplit (g : CMRGraph) (rowEdges columnEdges : List Nat)
    (baseNumRows : Nat) (nonzeroColumns : List Nat) (splitNode : Int)
    (comps : List (Option Nat)) (bipartition : List Int) :
    CMRGraph × List Nat × List Nat :=
  let an := CMRgraphAddNode g
  let sisterNode := an.2
  let edges1 := nonzeroColumns.foldl
    (fun e1 c => e1.set (columnEdges.getD c 0) true)
    (List.replicate (CMRgraphMemEdges an.1) false)
  let incident := (CMRgraphInc an.1 splitNode.toNat).map Prod.fst
  let g2 := incident.foldl
    (fun gg e =>
      let u := CMRgraphEdgeU gg e
      let v := if (u : Int) = splitNode then CMRgraphEdgeV gg e else u
      let side0 := bipartition.getD ((comps.getD v none).getD 0) 0
      let side := if edges1.getD e false = true then 1 - side0 else side0
      if side ≠ 0 then (CMRgraphAddEdge (CMRgraphDeleteEdge gg e) v sisterNode).1
      else gg)
    an.1
  let ae := CMRgraphAddEdge g2 splitNode.toNat sisterNode
  (ae.1, rowEdges.set baseNumRows ae.2, columnEdges)

/-- Translation of addToGraph1Row, the general one-row handler: find
articulation points of the graph with the 1-edges disabled, intersect them
with the pruned parent paths of every 1-edge, and if exactly one candidate
survives, check bipartiteness of the auxiliary component graph; commit the
split on success.  Entry assertions and the assertion numComponents >= 2
are modelled as none. -/
def addToGraph1Row (g : CMRGraph) (rowEdges columnEdges : List Nat)
    (baseNumRows baseNumColumns : Nat) (nonzeroColumns : List Nat) :
    Option (Bool × CMRGraph × List Nat × List Nat) :=
  if ¬ (3 ≤ baseNumRows ∧ 3 ≤ baseNumColumns ∧
      nonzeroColumns.length ≤ baseNumColumns) then none
  else
    let cand0 := findArticulationPoints g columnEdges nonzeroColumns
    let count0 := (List.range g.numNodes).countP (fun v => cand0.getD v 0 ≠ 0)
    if 0 < count0 then
      let parents := findTreeParents g rowEdges baseNumRows
      let paths := nonzeroColumns.map (fun c =>
        prunedPathNodes parents (baseNumRows + 1)
          (CMRgraphEdgeU g (columnEdges.getD c 0))
          (CMRgraphEdgeV g (columnEdges.getD c 0)))
      let mres := markLoop paths 0 cand0 count0 (-1)
      if mres.2.1 = 1 then
        let comps := findComponents g columnEdges mres.2.2 nonzeroColumns
        if comps.2 < 2 then none
        else
          let aux := buildAuxiliaryGraph g columnEdges nonzeroColumns comps.1 comps.2
          let bip := findBipartition aux
          if bip.2 = true then
            some (true,
              performSplit g rowEdges columnEdges baseNumRows nonzeroColumns
                mres.2.2 comps.1 bip.1)
          else some (false, g, rowEdges, columnEdges)
      else some (false, g, rowEdges, columnEdges)
    else some (false, g, rowEdges, columnEdges)

/-- The pruned parent paths of the 1-edges, as walked by addToGraph1Row:
for every nonzero column, the pruned upward walks from the two endpoints
of its column edge. -/
def rowPaths (g : CMRGraph) (re ce : List Nat) (bR : Nat) (nzc : List Nat) :
    List (List Nat) :=
  nzc.map (fun c =>
    prunedPathNodes (findTreeParents g re bR) (bR + 1)
      (CMRgraphEdgeU g (ce.getD c 0))
      (CMRgraphEdgeV g (ce.getD c 0)))

/-! The three small handlers and the general one-column handler. -/

/-- Translation of checkEdgesAdjacent: if the two edges share an endpoint,
return the common endpoint together with the remaining endpoint of each
edge (endpoints probed in the order U then V of each edge). -/
def checkEdgesAdjacent (g : CMRGraph) (e f : Nat) : Option (Nat × Nat × Nat) :=
  let eU := CMRgraphEdgeU g e
  let eV := CMRgraphEdgeV g e
  let fU := CMRgraphEdgeU g f
  let fV := CMRgraphEdgeV g f
  if eU = fU then some (eU, eV, fV)
  else if eU = fV then some (eU, eV, fU)
  else if eV = fU then some (eV, eU, fV)
  else if eV = fV then some (eV, eU, fU)
  else none

/-- The resolution of a parallel element to its existing edge, shared by
the three small handlers: row elements index rowEdges, column elements
index columnEdges. -/
def resolveParallelEdge (rowEdges columnEdges : List Nat) (e : Int) : Nat :=
  if CMRelementIsRow e then rowEdges.getD (CMRelementToRowIndex e) 0
  else columnEdges.getD (CMRelementToColumnIndex e) 0

/-- Translation of addToGraph1Row1Column: both parallel elements are
asserted valid (modelled as none otherwise); if the two resolved edges are
adjacent, subdivide the row edge at a fresh node and attach the new row and
column edges there, otherwise fail. -/
def addToGraph1Row1Column (g : CMRGraph) (rowEdges columnEdges : List Nat)
    (baseNumRows baseNumColumns : Nat) (rowParallel columnParallel : Int) :
    Option (Bool × CMRGraph × List Nat × List Nat) :=
  if ¬ (3 ≤ baseNumRows ∧ 3 ≤ baseNumColumns ∧
      CMRelementIsValid rowParallel = true ∧
      CMRelementIsValid columnParallel = true) then none
  else
    let rowEdge := resolveParallelEdge rowEdges columnEdges rowParallel
    let columnEdge := resolveParallelEdge rowEdges columnEdges columnParallel
    match checkEdgesAdjacent g rowEdge columnEdge with
    | some (common, rowOther, columnOther) =>
      let an := CMRgraphAddNode g
      let rowSplit := an.2
      let a1 := CMRgraphAddEdge (CMRgraphDeleteEdge an.1 rowEdge) rowOther rowSplit
      let a2 := CMRgraphAddEdge a1.1 rowSplit common
      let a3 := CMRgraphAddEdge a2.1 rowSplit columnOther
      some (true, a3.1, rowEdges.set baseNumRows a2.2,
        columnEdges.set baseNumColumns a3.2)
    | none => some (false, g, rowEdges, columnEdges)

/-- Translation of addToGraph2Rows1Column: both rows' parallel elements are
asserted valid; if their resolved edges are adjacent, subdivide each at a
fresh node, attach the two new row edges to the common endpoint and join
the two fresh nodes by the new column edge, otherwise fail. -/
def addToGraph2Rows1Column (g : CMRGraph) (rowEdges columnEdges : List Nat)
    (baseNumRows baseNumColumns : Nat) (row1Parallel row2Parallel : Int) :
    Option (Bool × CMRGraph × List Nat × List Nat) :=
  if ¬ (3 ≤ baseNumRows ∧ 3 ≤ baseNumColumns ∧
      CMRelementIsValid row1Parallel = true ∧
      CMRelementIsValid row2Parallel = true) then none
  else
    let row1Edge := resolveParallelEdge rowEdges columnEdges row1Parallel
    let row2Edge := resolveParallelEdge rowEdges columnEdges row2Parallel
    match checkEdgesAdjacent g row1Edge row2Edge with
    | some (common, other1, other2) =>
      let an1 := CMRgraphAddNode g
      let row1Split := an1.2
      let b1 := CMRgraphAddEdge (CMRgraphDeleteEdge an1.1 row1Edge) other1 row1Split
      let b2 := CMRgraphAddEdge b1.1 row1Split common
      let an2 := CMRgraphAddNode b2.1
      let row2Split := an2.2
      let b3 := CMRgraphAddEdge (CMRgraphDeleteEdge an2.1 row2Edge) other2 row2Split
      let b4 := CMRgraphAddEdge b3.1 row2Split common
      let b5 := CMRgraphAddEdge b4.1 row1Split row2Split
      some (true, b5.1,
        (rowEdges.set baseNumRows b2.2).set (baseNumRows + 1) b4.2,
        columnEdges.set baseNumColumns b5.2)
    | none => some (false, g, rowEdges, columnEdges)

/-- Translation of addToGraph1Row2Columns: both columns' parallel elements
are asserted valid; if their resolved edges are adjacent, add one fresh
node joined to both non-common endpoints by the two new column edges and
to the common endpoint by the new row edge, otherwise fail. -/
def addToGraph1Row2Columns (g : CMRGraph) (rowEdges columnEdges : List Nat)
    (baseNumRows baseNumColumns : Nat) (column1Parallel column2Parallel : Int) :
    Option (Bool × CMRGraph × List Nat × List Nat) :=
  if ¬ (3 ≤ baseNumRows ∧ 3 ≤ baseNumColumns ∧
      CMRelementIsValid column1Parallel = true ∧
      CMRelementIsValid column2Parallel = true) then none
  else
    let column1Edge := resolveParallelEdge rowEdges columnEdges column1Parallel
    let column2Edge := resolveParallelEdge rowEdges columnEdges column2Parallel
    match checkEdgesAdjacent g column1Edge column2Edge with
    | some (common, other1, other2) =>
      let an := CMRgraphAddNode g
      let newNode := an.2
      let c1 := CMRgraphAddEdge an.1 other1 newNode
      let c2 := CMRgraphAddEdge c1.1 other2 newNode
      let c3 := CMRgraphAddEdge c2.1 common newNode
      some (true, c3.1, rowEdges.set baseNumRows c3.2,
        (columnEdges.set baseNumColumns c1.2).set (baseNumColumns + 1) c2.2)
    | none => some (false, g, rowEdges, columnEdges)

/-- One degree increment of addToGraph1Column: bump the degree of one
endpoint and adjust the leaf count when the degree becomes 1 or 2. -/
def bumpStep (acc : List Nat × Nat) (u : Nat) : List Nat × Nat :=
  let du := acc.1.getD u 0 + 1
  (acc.1.set u du, if du = 1 then acc.2 + 1 else if du = 2 then acc.2 - 1 else acc.2)

/-- One iteration of the degree loop of addToGraph1Column: bump both
endpoints of the row edge of one nonzero row. -/
def degreeStep (g : CMRGraph) (rowEdges : List Nat) (acc : List Nat × Nat)
    (ri : Nat) : List Nat × Nat :=
  let e := rowEdges.getD ri 0
  bumpStep (bumpStep acc (CMRgraphEdgeU g e)) (CMRgraphEdgeV g e)

/-- The scan of addToGraph1Column over all nodes picking the first two
nodes of degree one (the second slot keeps being overwritten, so with
exactly two such nodes it holds the second). -/
def pickDegreeOneNodes (deg : List Nat) (n : Nat) : Int × Int :=
  (List.range n).foldl
    (fun (ns : Int × Int) v =>
      if deg.getD v 0 = 1 then
        if ns.1 < 0 then ((v : Int), ns.2) else (ns.1, (v : Int))
      else ns)
    (-1, -1)

/-- Translation of addToGraph1Column, the general one-column handler:
count, over the row edges of the rows with a nonzero in the new column,
the nodes of degree one; succeed exactly when there are two, joining them
by the new column edge. -/
def addToGraph1Column (g : CMRGraph) (rowEdges columnEdges : List Nat)
    (baseNumRows baseNumColumns : Nat) (nonzeroRows : List Nat) :
    Option (Bool × CMRGraph × List Nat × List Nat) :=
  if ¬ (3 ≤ baseNumRows ∧ 3 ≤ baseNumColumns ∧
      nonzeroRows.length ≤ baseNumRows) then none
  else
    let r := nonzeroRows.foldl (degreeStep g rowEdges) (List.replicate g.numNodes 0, 0)
    if r.2 = 2 then
      let pick := pickDegreeOneNodes r.1 g.numNodes
      let ae := CMRgraphAddEdge g pick.1.toNat pick.2.toNat
      some (true, ae.1, rowEdges, columnEdges.set baseNumColumns ae.2)
    else some (false, g, rowEdges, columnEdges)

/-! The initial wheel builder createWheel. -/

/-- Number of nonzeros of a row inside the leading wheelSize columns, as
counted by createWheel (the scan stops at the first entry past the
prefix). -/
def wheelRowCount (m : CMR_CHRMAT) (wheelSize row : Nat) : Nat :=
  ((rowEntries m row).takeWhile (fun c => c < wheelSize)).length

/-- The rim walk's next column: the first entry of the current row that is
neither the current column nor (for the 3-nonzero row) the 3-nonzero
column. -/
def wheelNextColumn (m : CMR_CHRMAT) (rowWithThree columnWithThree : Option Nat)
    (lastRow lastColumn : Nat) : Nat :=
  let ents := rowEntries m lastRow
  if some lastRow = rowWithThree then
    let nc0 := ents.getD 0 0
    let nc1 := if nc0 = lastColumn ∨ some nc0 = columnWithThree then ents.getD 1 0 else nc0
    if nc1 = lastColumn ∨ some nc1 = columnWithThree then ents.getD 2 0 else nc1
  else
    let nc0 := ents.getD 0 0
    if nc0 = lastColumn then ents.getD 1 0 else nc0

/-- The rim walk's next row: the first entry of the next column (in the
transpose) that is neither the current row nor (for the 3-nonzero column)
the 3-nonzero row. -/
def wheelNextRow (t : CMR_CHRMAT) (rowWithThree columnWithThree : Option Nat)
    (lastRow nextColumn : Nat) : Nat :=
  let ents := rowEntries t nextColumn
  if some nextColumn = columnWithThree then
    let nr0 := ents.getD 0 0
    let nr1 := if nr0 = lastRow ∨ some nr0 = rowWithThree then ents.getD 1 0 else nr0
    if nr1 = lastRow ∨ some nr1 = rowWithThree then ents.getD 2 0 else nr1
  else
    let nr0 := ents.getD 0 0
    if nr0 = lastRow then ents.getD 1 0 else nr0

/-- State of the rim walk of createWheel. -/
structure WheelState where
  graph : CMRGraph
  rowEdges : List Nat
  columnEdges : List Nat
  lastRimNode : Nat
  lastRow : Nat
  lastColumn : Nat
deriving DecidableEq

/-- One iteration of the rim walk of createWheel: compute the next column
and row, add the next rim node (reusing the first rim node when the walk
returns to row 0), add the rim edge and the spoke edge, and record them
under the current row and column; also returns the next row, on which the
loop's stopping test is made. -/
def wheelStep (m t : CMR_CHRMAT) (rowWithThree columnWithThree : Option Nat)
    (firstRimNode centerNode : Nat) (st : WheelState) : WheelState × Nat :=
  let nextColumn := wheelNextColumn m rowWithThree columnWithThree st.lastRow st.lastColumn
  let nextRow := wheelNextRow t rowWithThree columnWithThree st.lastRow nextColumn
  let p := if nextRow = 0 then (st.graph, firstRimNode) else CMRgraphAddNode st.graph
  let a1 := CMRgraphAddEdge p.1 st.lastRimNode p.2
  let a2 := CMRgraphAddEdge a1.1 centerNode p.2
  let assignSpoke : Prop :=
    rowWithThree.isSome = true ∧ some st.lastRow ≠ rowWithThree ∧
      some nextRow ≠ rowWithThree
  ({ graph := a2.1,
     rowEdges :=
       if assignSpoke then st.rowEdges.set st.lastRow a1.2
       else st.rowEdges.set st.lastRow a2.2,
     columnEdges :=
       if assignSpoke then st.columnEdges.set st.lastColumn a2.2
       else st.columnEdges.set st.lastColumn a1.2,
     lastRimNode := p.2, lastRow := nextRow, lastColumn := nextColumn }, nextRow)

/-- Translation of the rim walk of createWheel: iterate wheelStep until
the walk returns to row 0.  The C loop has no step bound; the embedding
carries fuel and returns none when it is exhausted. -/
def wheelLoop (m t : CMR_CHRMAT) (rowWithThree columnWithThree : Option Nat)
    (firstRimNode centerNode : Nat) : Nat → WheelState → Option WheelState
  | 0, _ => none
  | fuel + 1, st =>
    let s := wheelStep m t rowWithThree columnWithThree firstRimNode centerNode st
    if s.2 = 0 then some s.1
    else wheelLoop m t rowWithThree columnWithThree firstRimNode centerNode fuel s.1

/-- Translation of createWheel: check the wheel nonzero pattern (each
prefix row and column has 2 or 3 nonzeros, at most one row and at most one
column have 3, and 3-rows and 3-columns occur together – the C assertions,
modelled as none), create the hub and the first rim node, and run the rim
walk starting at row 0 and its first nonzero column. -/
def createWheel (m t : CMR_CHRMAT) (wheelSize : Nat) (g0 : CMRGraph)
    (rowEdges columnEdges : List Nat) : Option (CMRGraph × List Nat × List Nat) :=
  if ¬ (wheelSize ≤ m.numRows ∧ wheelSize ≤ m.numColumns) then none
  else if ¬ (∀ r ∈ List.range wheelSize,
      wheelRowCount m wheelSize r = 2 ∨ wheelRowCount m wheelSize r = 3) then none
  else if ¬ (∀ c ∈ List.range wheelSize,
      wheelRowCount t wheelSize c = 2 ∨ wheelRowCount t wheelSize c = 3) then none
  else
    let rows3 := (List.range wheelSize).filter (fun r => wheelRowCount m wheelSize r = 3)
    let cols3 := (List.range wheelSize).filter (fun c => wheelRowCount t wheelSize c = 3)
    if ¬ (rows3.length ≤ 1 ∧ cols3.length ≤ 1 ∧ rows3.length = cols3.length) then none
    else
      let an1 := CMRgraphAddNode g0
      let centerNode := an1.2
      let an2 := CMRgraphAddNode an1.1
      let firstRimNode := an2.2
      let st0 : WheelState :=
        { graph := an2.1, rowEdges := rowEdges, columnEdges := columnEdges,
          lastRimNode := firstRimNode, lastRow := 0,
          lastColumn := (rowEntries m 0).getD 0 0 }
      match wheelLoop m t rows3.head? cols3.head? firstRimNode centerNode
          (wheelSize + 1) st0 with
      | none => none
      | some st => some (st.graph, st.rowEdges, st.columnEdges)

/-! The sequence driver CMRregularSequenceGraphic. -/

/-- Mutable state owned by the driver across extension steps. -/
structure DriverState where
  graph : CMRGraph
  rowEdges : List Nat
  columnEdges : List Nat
  rowHashValues : List Int
  columnHashValues : List Int
  lastGraphicMinor : Nat
deriving DecidableEq

/-- The extension dispatcher: compute the boundary difference of step ext
and invoke the matching handler, looking up parallel elements through
findParallel where the handler needs them.  The final else branch of the C
code asserts the (1,0) shape; any other shape is an assertion failure,
modelled as none. -/
def dispatchStep (proj : Int → Int) (m t : CMR_CHRMAT) (hv : List Int)
    (seqR seqC : List Nat) (st : DriverState) (ext : Nat) :
    Option (Bool × CMRGraph × List Nat × List Nat) :=
  let prevR := seqR.getD (ext - 1) 0
  let prevC := seqC.getD (ext - 1) 0
  let newRows := seqR.getD ext 0 - prevR
  let newColumns := seqC.getD ext 0 - prevC
  if newRows = 1 ∧ newColumns = 1 then
    match findParallel proj m prevR prevR prevC st.rowHashValues hv,
        (findParallel proj t prevC prevC prevR st.columnHashValues hv).map
          CMRelementTranspose with
    | some rowParallel, some columnParallel =>
      addToGraph1Row1Column st.graph st.rowEdges st.columnEdges prevR prevC
        rowParallel columnParallel
    | _, _ => none
  else if newRows = 2 ∧ newColumns = 1 then
    match findParallel proj m prevR prevR prevC st.rowHashValues hv,
        findParallel proj m (prevR + 1) prevR prevC st.rowHashValues hv with
    | some row1Parallel, some row2Parallel =>
      addToGraph2Rows1Column st.graph st.rowEdges st.columnEdges prevR prevC
        row1Parallel row2Parallel
    | _, _ => none
  else if newRows = 1 ∧ newColumns = 2 then
    match (findParallel proj t prevC prevC prevR st.columnHashValues hv).map
        CMRelementTranspose,
        (findParallel proj t (prevC + 1) prevC prevR st.columnHashValues hv).map
          CMRelementTranspose with
    | some column1Parallel, some column2Parallel =>
      addToGraph1Row2Columns st.graph st.rowEdges st.columnEdges prevR prevC
        column1Parallel column2Parallel
    | _, _ => none
  else if newRows = 0 ∧ newColumns = 1 then
    addToGraph1Column st.graph st.rowEdges st.columnEdges prevR prevC
      ((rowEntries t prevC).takeWhile (fun r => r < prevR))
  else if newRows = 1 ∧ newColumns = 0 then
    addToGraph1Row st.graph st.rowEdges st.columnEdges prevR prevC
      ((rowEntries m prevR).takeWhile (fun c => c < prevC))
  else none

/-- The driver loop over extension steps: dispatch each step, record the
last graphic minor and update the hash accumulators on success, and stop
at the first non-graphic step. -/
def driverLoop (proj : Int → Int) (m t : CMR_CHRMAT) (hv : List Int)
    (seqR seqC : List Nat) : Nat → Nat → DriverState → Option DriverState
  | 0, _, st => some st
  | steps + 1, ext, st =>
    match dispatchStep proj m t hv seqR seqC st ext with
    | none => none
    | some (isGraphic, g, re, ce) =>
      if isGraphic = true then
        let u1 := updateHashValues proj m st.rowHashValues st.columnHashValues hv
          (seqR.getD (ext - 1) 0) (seqR.getD ext 0) (seqC.getD (ext - 1) 0)
        let u2 := updateHashValues proj t u1.2 u1.1 hv
          (seqC.getD (ext - 1) 0) (seqC.getD ext 0) (seqR.getD ext 0)
        driverLoop proj m t hv seqR seqC steps (ext + 1)
          { graph := g, rowEdges := re, columnEdges := ce,
            rowHashValues := u2.2, columnHashValues := u2.1,
            lastGraphicMinor := ext }
      else some { st with graph := g, rowEdges := re, columnEdges := ce }

/-- The driver's initialisation: the first minor is asserted square and its
wheel graph is built; the hash accumulators receive the first minor's
nonzeros. -/
def driverInit (proj : Int → Int) (m t : CMR_CHRMAT) (hv : List Int)
    (seqR seqC : List Nat) : Option DriverState :=
  if ¬ (seqR.getD 0 0 = seqC.getD 0 0) then none
  else
    match createWheel m t (seqR.getD 0 0) emptyGraph
        (List.replicate m.numRows 0) (List.replicate m.numColumns 0) with
    | none => none
    | some (g, re, ce) =>
      let u := updateHashValues proj m (List.replicate m.numRows 0)
        (List.replicate m.numColumns 0) hv 0 (seqR.getD 0 0) (seqC.getD 0 0)
      some
        { graph := g, rowEdges := re, columnEdges := ce,
          rowHashValues := u.1, columnHashValues := u.2, lastGraphicMinor := 0 }

/-- Result of the driver; the final row/column edge maps are exposed for
specification purposes (the C code frees them after building the
edge-to-element array). -/
structure SequenceGraphicResult where
  lastGraphicMinor : Nat
  graph : Option CMRGraph
  edgeElements : Option (List Int)
  rowEdges : List Nat
  columnEdges : List Nat
deriving DecidableEq

/-- Translation of CMRregularSequenceGraphic: build the wheel for the first
minor, run the extension loop, and on full success return the witness graph
together with the edge-to-element array (zero-initialised, then rows and
columns written in order); otherwise the graph is freed and no array is
produced. -/
def CMRregularSequenceGraphic (proj : Int → Int) (m t : CMR_CHRMAT)
    (lengthSequence : Nat) (seqR seqC : List Nat) :
    Option SequenceGraphicResult :=
  let hv := createHashVector proj (max m.numRows m.numColumns)
  match driverInit proj m t hv seqR seqC with
  | none => none
  | some st0 =>
    match driverLoop proj m t hv seqR seqC (lengthSequence - 1) 1 st0 with
    | none => none
    | some st =>
      if st.lastGraphicMinor + 1 = lengthSequence then
        let ee0 := List.replicate (m.numRows + m.numColumns) (0 : Int)
        let ee1 := (List.range m.numRows).foldl
          (fun a r => a.set (st.rowEdges.getD r 0) (CMRrowToElement r)) ee0
        let ee2 := (List.range m.numColumns).foldl
          (fun a c => a.set (st.columnEdges.getD c 0) (CMRcolumnToElement c)) ee1
        some
          { lastGraphicMinor := st.lastGraphicMinor, graph := some st.graph,
            edgeElements := some ee2, rowEdges := st.rowEdges,
            columnEdges := st.columnEdges }
      else
        some
          { lastGraphicMinor := st.lastGraphicMinor, graph := none,
            edgeElements := none, rowEdges := st.rowEdges,
            columnEdges := st.columnEdges }

/-! Concrete instances used by witnesses and counterexamples. -/

/-- The 3-by-3 wheel matrix of scenario A: rows with supports 01, 02, 12. -/
def wheelMatrix3 : CMR_CHRMAT :=
  { numRows := 3, numColumns := 3, rowSlice := [0, 2, 4, 6],
    entryColumns := [0, 1, 0, 2, 1, 2], entryValues := [1, 1, 1, 1, 1, 1] }

/-- The wheel graph built for wheelMatrix3 (hub 0, rim 1-2-3). -/
def wheelGraph3 : CMRGraph :=
  { numNodes := 4,
    edgeSlots := [some (1, 2), some (0, 2), some (2, 3), some (0, 3),
      some (3, 1), some (0, 1)],
    freed := [] }

/-- Block-diagonal union of two 3-by-3 wheel matrices: every row and
column of the leading 6-by-6 prefix has exactly two nonzeros. -/
def twoTrianglesMatrix : CMR_CHRMAT :=
  { numRows := 6, numColumns := 6, rowSlice := [0, 2, 4, 6, 8, 10, 12],
    entryColumns := [0, 1, 1, 2, 0, 2, 3, 4, 4, 5, 3, 5],
    entryValues := [1, 1, 1, 1, 1, 1, 1, 1, 1, 1, 1, 1] }

/-- The transpose of twoTrianglesMatrix. -/
def twoTrianglesTranspose : CMR_CHRMAT :=
  { numRows := 6, numColumns := 6, rowSlice := [0, 2, 4, 6, 8, 10, 12],
    entryColumns := [0, 2, 0, 1, 1, 2, 3, 5, 3, 4, 4, 5],
    entryValues := [1, 1, 1, 1, 1, 1, 1, 1, 1, 1, 1, 1] }

/-- A 2-row matrix whose second row extends the first by the extra prefix
column 2: row 0 has entries 01, row 1 has entries 012. -/
def lockstepMatrix : CMR_CHRMAT :=
  { numRows := 2, numColumns := 5, rowSlice := [0, 2, 5],
    entryColumns := [0, 1, 0, 1, 2], entryValues := [1, 1, 1, 1, 1] }

/-- The driver's full result on the 3-wheel with a length-1 sequence:
the wheel graph together with the edge-to-element array. -/
def wheelResult3 : SequenceGraphicResult :=
  { lastGraphicMinor := 0,
    graph := some
      { numNodes := 4,
        edgeSlots := [some (1, 2), some (0, 2), some (2, 3), some (0, 3),
          some (3, 1), some (0, 1)],
        freed := [] },
    edgeElements := some [1, -1, 2, -3, 3, -2],
    rowEdges := [1, 5, 3],
    columnEdges := [0, 2, 4] }

/-! Claim C10: the small handlers assert validity of the parallel elements. -/

/-- Claim C10: the (1,1), (2,1) and (1,2) handlers assert that the parallel
elements are valid before resolving them to edges; the invalid element 0
returned by findParallel when no processed line matches therefore yields an
assertion failure (modelled as none), never a non-graphic verdict. -/
theorem smallHandlers_assert_valid_parallel
    (g : CMRGraph) (re ce : List Nat) (bR bC : Nat) (e1 e2 : Int)
    (h : CMRelementIsValid e1 = false ∨ CMRelementIsValid e2 = false) :
    CMRelementIsValid 0 = false ∧
    addToGraph1Row1Column g re ce bR bC e1 e2 = none ∧
    addToGraph2Rows1Column g re ce bR bC e1 e2 = none ∧
    addToGraph1Row2Columns g re ce bR bC e1 e2 = none := by
  refine ⟨by decide, ?_, ?_, ?_⟩ <;>
    · first
      | (unfold addToGraph1Row1Column; rcases h with h | h <;> simp [h])
      | (unfold addToGraph2Rows1Column; rcases h with h | h <;> simp [h])
      | (unfold addToGraph1Row2Columns; rcases h with h | h <;> simp [h])

/-- Witness for C10: the handlers on the invalid row-parallel element 0. -/
theorem smallHandlers_assert_valid_parallel_witness :
    CMRelementIsValid 0 = false ∧
    addToGraph1Row1Column wheelGraph3 [1, 5, 3] [0, 2, 4] 3 3 0 1 = none ∧
    addToGraph2Rows1Column wheelGraph3 [1, 5, 3] [0, 2, 4] 3 3 0 1 = none ∧
    addToGraph1Row2Columns wheelGraph3 [1, 5, 3] [0, 2, 4] 3 3 0 1 = none :=
  smallHandlers_assert_valid_parallel wheelGraph3 [1, 5, 3] [0, 2, 4] 3 3 0 1
    (Or.inl (by decide))

/-! Claim C9: which boundary-difference shapes the dispatcher handles. -/

/-- Counterexample to C9 as stated: a step whose boundary difference is
(2,0) — both components in 0..2 and not both zero — is not dispatched to
any handler; it falls into the final else branch whose assertion of the
(1,0) shape fails (modelled as none), so no graphic/non-graphic verdict is
obtained. -/
theorem dispatcher_shape_two_zero_cex :
    ([3, 5].getD 1 0 : Nat) - [3, 5].getD 0 0 = 2 ∧
    ([3, 3].getD 1 0 : Nat) - [3, 3].getD 0 0 = 0 ∧
    dispatchStep (fun x => x) wheelMatrix3 wheelMatrix3 [1, 3, 9] [3, 5] [3, 3]
      { graph := wheelGraph3, rowEdges := [1, 5, 3], columnEdges := [0, 2, 4],
        rowHashValues := [4, 10, 12], columnHashValues := [4, 10, 12],
        lastGraphicMinor := 0 } 1 = none := by
  decide

/-- Claim C9, amended: the dispatcher handles exactly the shapes (1,1),
(2,1), (1,2), (0,1) and (1,0); a boundary difference of (2,0), (0,2) or
(2,2) falls into the final else branch, whose assertion of the (1,0) shape
fails (none) and no verdict is obtained, while for instance the (1,0)
shape is dispatched to the general one-row handler. -/
theorem dispatcher_shapes
    (proj : Int → Int) (m t : CMR_CHRMAT) (hv : List Int) (seqR seqC : List Nat)
    (st : DriverState) (ext : Nat) :
    ((seqR.getD ext 0 - seqR.getD (ext - 1) 0 = 2 ∧
        seqC.getD ext 0 - seqC.getD (ext - 1) 0 = 0) ∨
      (seqR.getD ext 0 - seqR.getD (ext - 1) 0 = 0 ∧
        seqC.getD ext 0 - seqC.getD (ext - 1) 0 = 2) ∨
      (seqR.getD ext 0 - seqR.getD (ext - 1) 0 = 2 ∧
        seqC.getD ext 0 - seqC.getD (ext - 1) 0 = 2) →
      dispatchStep proj m t hv seqR seqC st ext = none) ∧
    (seqR.getD ext 0 - seqR.getD (ext - 1) 0 = 1 ∧
        seqC.getD ext 0 - seqC.getD (ext - 1) 0 = 0 →
      dispatchStep proj m t hv seqR seqC st ext =
        addToGraph1Row st.graph st.rowEdges st.columnEdges
          (seqR.getD (ext - 1) 0) (seqC.getD (ext - 1) 0)
          ((rowEntries m (seqR.getD (ext - 1) 0)).takeWhile
            (fun c => c < seqC.getD (ext - 1) 0))) := by
  constructor
  · intro h
    unfold dispatchStep
    rcases h with ⟨h1, h2⟩ | ⟨h1, h2⟩ | ⟨h1, h2⟩ <;>
      · simp only [List.getD_eq_getElem?_getD] at h1 h2
        simp [h1, h2]
  · intro h
    obtain ⟨h1, h2⟩ := h
    unfold dispatchStep
    simp only [List.getD_eq_getElem?_getD] at h1 h2
    simp [h1, h2]

/-- Witness for C9's amended theorem: the (2,2) shape is an assertion
failure and the (1,0) shape reaches the general one-row handler. -/
theorem dispatcher_shapes_witness :
    dispatchStep (fun x => x) wheelMatrix3 wheelMatrix3 [1, 3, 9] [3, 5] [3, 5]
      { graph := wheelGraph3, rowEdges := [1, 5, 3], columnEdges := [0, 2, 4],
        rowHashValues := [4, 10, 12], columnHashValues := [4, 10, 12],
        lastGraphicMinor := 0 } 1 = none ∧
    dispatchStep (fun x => x) wheelMatrix3 wheelMatrix3 [1, 3, 9] [3, 4] [3, 3]
      { graph := wheelGraph3, rowEdges := [1, 5, 3], columnEdges := [0, 2, 4],
        rowHashValues := [4, 10, 12], columnHashValues := [4, 10, 12],
        lastGraphicMinor := 0 } 1 =
      addToGraph1Row wheelGraph3 [1, 5, 3] [0, 2, 4] 3 3
        ((rowEntries wheelMatrix3 3).takeWhile (fun c => c < 3)) :=
  ⟨(dispatcher_shapes (fun x => x) wheelMatrix3 wheelMatrix3 [1, 3, 9] [3, 5] [3, 5]
      { graph := wheelGraph3, rowEdges := [1, 5, 3], columnEdges := [0, 2, 4],
        rowHashValues := [4, 10, 12], columnHashValues := [4, 10, 12],
        lastGraphicMinor := 0 } 1).1 (Or.inr (Or.inr (by decide))),
    (dispatcher_shapes (fun x => x) wheelMatrix3 wheelMatrix3 [1, 3, 9] [3, 4] [3, 3]
      { graph := wheelGraph3, rowEdges := [1, 5, 3], columnEdges := [0, 2, 4],
        rowHashValues := [4, 10, 12], columnHashValues := [4, 10, 12],
        lastGraphicMinor := 0 } 1).2 (by decide)⟩

/-! Claim C3: on a non-graphic verdict every handler leaves the graph and
both edge maps exactly as they were. -/

/-- Claim C3: for each of the five extension handlers, whenever the handler
reports failure (non-graphic), the returned witness graph and both edge
maps are exactly the inputs: no node or edge is added, deleted or rewired
on any failure path. -/
theorem handlers_failure_preserve_state
    (g : CMRGraph) (re ce : List Nat) (bR bC : Nat) (e1 e2 : Int)
    (nzc nzr : List Nat) (g' : CMRGraph) (re' ce' : List Nat) :
    (addToGraph1Row1Column g re ce bR bC e1 e2 = some (false, g', re', ce') →
      g' = g ∧ re' = re ∧ ce' = ce) ∧
    (addToGraph2Rows1Column g re ce bR bC e1 e2 = some (false, g', re', ce') →
      g' = g ∧ re' = re ∧ ce' = ce) ∧
    (addToGraph1Row2Columns g re ce bR bC e1 e2 = some (false, g', re', ce') →
      g' = g ∧ re' = re ∧ ce' = ce) ∧
    (addToGraph1Column g re ce bR bC nzr = some (false, g', re', ce') →
      g' = g ∧ re' = re ∧ ce' = ce) ∧
    (addToGraph1Row g re ce bR bC nzc = some (false, g', re', ce') →
      g' = g ∧ re' = re ∧ ce' = ce) := by
  refine ⟨?_, ?_, ?_, ?_, ?_⟩
  · intro h
    simp only [addToGraph1Row1Column] at h
    split at h
    · exact absurd h (by simp)
    · split at h
      · simp at h
      · simp at h
        exact ⟨h.1.symm, h.2.1.symm, h.2.2.symm⟩
  · intro h
    simp only [addToGraph2Rows1Column] at h
    split at h
    · exact absurd h (by simp)
    · split at h
      · simp at h
      · simp at h
        exact ⟨h.1.symm, h.2.1.symm, h.2.2.symm⟩
  · intro h
    simp only [addToGraph1Row2Columns] at h
    split at h
    · exact absurd h (by simp)
    · split at h
      · simp at h
      · simp at h
        exact ⟨h.1.symm, h.2.1.symm, h.2.2.symm⟩
  · intro h
    simp only [addToGraph1Column] at h
    split at h
    · exact absurd h (by simp)
    · split at h
      · simp at h
      · simp at h
        exact ⟨h.1.symm, h.2.1.symm, h.2.2.symm⟩
  · intro h
    simp only [addToGraph1Row] at h
    split at h
    · exact absurd h (by simp)
    · split at h
      · split at h
        · split at h
          · exact absurd h (by simp)
          · split at h
            · simp at h
            · simp at h
              exact ⟨h.1.symm, h.2.1.symm, h.2.2.symm⟩
        · simp at h
          exact ⟨h.1.symm, h.2.1.symm, h.2.2.symm⟩
      · simp at h
        exact ⟨h.1.symm, h.2.1.symm, h.2.2.symm⟩

/-- Witness for C3: concrete failing calls of the five handlers leave the
wheel graph of wheelMatrix3 and its edge maps untouched.  The (1,1), (2,1)
and (1,2) handlers fail on the non-adjacent edges 0 = {1,2} and 3 = {0,3};
the one-column handler fails on the rim rows 0 and 1 plus the disjoint
third rim row set giving four leaves; the one-row handler fails on all
three columns of the wheel (non-bipartite auxiliary triangle). -/
theorem handlers_failure_preserve_state_witness :
    addToGraph1Row1Column wheelGraph3 [1, 5, 3] [0, 2, 4] 3 3
        (CMRcolumnToElement 0) (CMRrowToElement 2) =
      some (false, wheelGraph3, [1, 5, 3], [0, 2, 4]) ∧
    (wheelGraph3, [1, 5, 3], [0, 2, 4]) = (wheelGraph3, [1, 5, 3], [0, 2, 4]) := by
  constructor
  · decide
  · have h := (handlers_failure_preserve_state wheelGraph3 [1, 5, 3] [0, 2, 4] 3 3
      (CMRcolumnToElement 0) (CMRrowToElement 2) [] [] wheelGraph3 [1, 5, 3]
      [0, 2, 4]).1 (by decide)
    simp [h.1, h.2.1, h.2.2]

/-! Claim C5: degree characterization of the general one-column handler. -/

/-- Auxiliary: getD after set at the same in-range index. -/
theorem getD_set_self {α : Type} (l : List α) (u : Nat) (a d : α) (h : u < l.length) :
    (l.set u a).getD u d = a := by
  simp [List.getD_eq_getElem?_getD, List.getElem?_set_self h]

/-- Auxiliary: getD after set at a different index. -/
theorem getD_set_ne {α : Type} (l : List α) (u v : Nat) (a d : α) (h : u ≠ v) :
    (l.set u a).getD v d = l.getD v d := by
  simp [List.getD_eq_getElem?_getD, List.getElem?_set_ne h]

/-- Auxiliary: how countP over a duplicate-free list changes when the
predicate is modified at a single member. -/
theorem countP_update (l : List Nat) (hnd : l.Nodup) (u : Nat) (hu : u ∈ l)
    (p q : Nat → Bool) (hagree : ∀ v ∈ l, v ≠ u → q v = p v) :
    l.countP q + (if p u then 1 else 0) = l.countP p + (if q u then 1 else 0) := by
  induction l with
  | nil => simp at hu
  | cons a tl ih =>
    rcases List.mem_cons.mp hu with rfl | hmem
    · have htl : ∀ v ∈ tl, q v = p v := by
        intro v hv
        exact hagree v (List.mem_cons_of_mem _ hv)
          (fun hvu => (List.nodup_cons.mp hnd).1 (hvu ▸ hv))
      have : tl.countP q = tl.countP p :=
        List.countP_congr (fun x hx => by rw [htl x hx])
      simp [List.countP_cons, this]
      omega
    · have hau : a ≠ u := fun h => (List.nodup_cons.mp hnd).1 (h ▸ hmem)
      have hqa : q a = p a := hagree a (List.mem_cons_self a tl) hau
      have := ih (List.nodup_cons.mp hnd).2 hmem
        (fun v hv hvu => hagree v (List.mem_cons_of_mem _ hv) hvu)
      simp [List.countP_cons, hqa]
      omega

/-- The flattened endpoint list of the row edges touched by the new
column. -/
def touchedEndpoints (g : CMRGraph) (rowEdges nonzeroRows : List Nat) : List Nat :=
  nonzeroRows.flatMap (fun ri =>
    [CMRgraphEdgeU g (rowEdges.getD ri 0), CMRgraphEdgeV g (rowEdges.getD ri 0)])

/-- The degree of a node in the sub-edge-set induced by the touched row
edges (an edge with both endpoints equal contributes two). -/
def inducedDegree (g : CMRGraph) (rowEdges nonzeroRows : List Nat) (v : Nat) : Nat :=
  (touchedEndpoints g rowEdges nonzeroRows).count v

/-- The degree loop of addToGraph1Column is the fold of single bumps over
the flattened endpoint list. -/
theorem degreeFold_eq_bumpFold (g : CMRGraph) (re : List Nat) (nz : List Nat)
    (acc : List Nat × Nat) :
    nz.foldl (degreeStep g re) acc = (touchedEndpoints g re nz).foldl bumpStep acc := by
  induction nz generalizing acc with
  | nil => rfl
  | cons ri tl ih =>
    simp only [touchedEndpoints, List.flatMap_cons, List.foldl_append, List.foldl_cons,
      List.foldl_nil, List.foldl_cons]
    exact ih _

/-- Auxiliary: getD on a replicated list is the replicated value. -/
theorem getD_replicate {α : Type} (n v : Nat) (a : α) :
    (List.replicate n a).getD v a = a := by
  by_cases hv : v < n
  · simp [List.getD_eq_getElem?_getD, List.getElem?_replicate, hv]
  · rw [List.getD_eq_getElem?_getD, List.getElem?_eq_none (by simpa using not_lt.mp hv)]
    rfl

/-- Invariant of the bump fold: the degree array records the occurrence
counts of the processed endpoints and the leaf counter counts the nodes of
degree one. -/
theorem bumpFold_characterization (n : Nat) (l : List Nat) (hl : ∀ u ∈ l, u < n) :
    (l.foldl bumpStep (List.replicate n 0, 0)).1.length = n ∧
    (∀ v, (l.foldl bumpStep (List.replicate n 0, 0)).1.getD v 0 = l.count v) ∧
    (l.foldl bumpStep (List.replicate n 0, 0)).2 =
      (List.range n).countP
        (fun v => (l.foldl bumpStep (List.replicate n 0, 0)).1.getD v 0 = 1) := by
  induction l using List.reverseRecOn with
  | nil =>
    refine ⟨by simp, ?_, ?_⟩
    · intro v
      simp only [List.foldl_nil, List.count_nil]
      exact getD_replicate n v 0
    · rw [eq_comm, List.foldl_nil, List.countP_eq_zero]
      intro v _
      simp [getD_replicate]
  | append_singleton tl u ih =>
    have hu : u < n := hl u (by simp)
    have htl : ∀ w ∈ tl, w < n := fun w hw => hl w (by simp [hw])
    obtain ⟨ihlen, ihdeg, ihcl⟩ := ih htl
    rw [List.foldl_concat]
    set r := tl.foldl bumpStep (List.replicate n 0, 0) with hr
    simp only [bumpStep]
    have hdu : r.1.getD u 0 + 1 = tl.count u + 1 := by rw [ihdeg u]
    have hulen : u < r.1.length := by rw [ihlen]; exact hu
    have hdegself : (r.1.set u (r.1.getD u 0 + 1)).getD u 0 = tl.count u + 1 := by
      rw [getD_set_self _ _ _ _ hulen, ihdeg u]
    have hdegne : ∀ v, v ≠ u → (r.1.set u (r.1.getD u 0 + 1)).getD v 0 = tl.count v := by
      intro v hv
      rw [getD_set_ne _ _ _ _ _ (Ne.symm hv), ihdeg v]
    refine ⟨by simp [List.length_set, ihlen], ?_, ?_⟩
    · intro v
      by_cases hv : v = u
      · subst hv
        rw [hdegself, List.count_append]
        simp
      · rw [hdegne v hv, List.count_append]
        simp [List.count_cons, hv, Ne.symm hv]
    · -- leaf counter equals the number of degree-one nodes
      have hcp := countP_update (List.range n) (List.nodup_range n) u
        (List.mem_range.mpr hu)
        (fun v => r.1.getD v 0 = 1)
        (fun v => (r.1.set u (r.1.getD u 0 + 1)).getD v 0 = 1)
        (fun v _ hvu => by simp only [getD_set_ne _ _ _ _ _ (Ne.symm hvu)])
      simp only at hcp
      by_cases h1 : r.1.getD u 0 + 1 = 1
      · have hpu : (decide (r.1.getD u 0 = 1)) = false := by
          simp only [decide_eq_false_iff_not]
          omega
        have hqu : (decide ((r.1.set u (r.1.getD u 0 + 1)).getD u 0 = 1)) = true := by
          simp only [decide_eq_true_eq, hdegself]
          omega
        rw [if_pos h1, ihcl]
        simp only [hpu, hqu, Bool.false_eq_true, if_false, if_true] at hcp
        omega
      · rw [if_neg h1]
        by_cases h2 : r.1.getD u 0 + 1 = 2
        · have hpu : (decide (r.1.getD u 0 = 1)) = true := by
            simp only [decide_eq_true_eq]
            omega
          have hqu : (decide ((r.1.set u (r.1.getD u 0 + 1)).getD u 0 = 1)) = false := by
            simp only [decide_eq_false_iff_not, hdegself]
            omega
          rw [if_pos h2, ihcl]
          simp only [hpu, hqu, Bool.false_eq_true, if_false, if_true] at hcp
          omega
        · have hpu : (decide (r.1.getD u 0 = 1)) = false := by
            simp only [decide_eq_false_iff_not]
            omega
          have hqu : (decide ((r.1.set u (r.1.getD u 0 + 1)).getD u 0 = 1)) = false := by
            simp only [decide_eq_false_iff_not, hdegself]
            omega
          rw [if_neg h2, ihcl]
          simp only [hpu, hqu, Bool.false_eq_true, if_false] at hcp
          omega

/-- The pick fold ignores every node that is not of degree one. -/
theorem pickFold_no_hit (deg : List Nat) (l : List Nat)
    (h : ∀ v ∈ l, ¬ deg.getD v 0 = 1) (st : Int × Int) :
    l.foldl
      (fun (ns : Int × Int) v =>
        if deg.getD v 0 = 1 then
          if ns.1 < 0 then ((v : Int), ns.2) else (ns.1, (v : Int))
        else ns) st = st := by
  induction l generalizing st with
  | nil => rfl
  | cons a tl ih =>
    rw [List.foldl_cons, if_neg (h a (List.mem_cons_self a tl))]
    exact ih (fun v hv => h v (List.mem_cons_of_mem _ hv)) st

/-- With a nonnegative first slot and exactly one degree-one node in the
remaining scan, the pick fold keeps the first slot and stores that node in
the second. -/
theorem pickFold_one_hit (deg : List Nat) (l : List Nat)
    (hc : l.countP (fun v => deg.getD v 0 = 1) = 1) :
    ∃ b ∈ l, deg.getD b 0 = 1 ∧ ∀ x y : Int, ¬ x < 0 →
      l.foldl
        (fun (ns : Int × Int) v =>
          if deg.getD v 0 = 1 then
            if ns.1 < 0 then ((v : Int), ns.2) else (ns.1, (v : Int))
          else ns) (x, y) = (x, (b : Int)) := by
  induction l with
  | nil => simp at hc
  | cons a tl ih =>
    by_cases ha : deg.getD a 0 = 1
    · have htl : tl.countP (fun v => deg.getD v 0 = 1) = 0 := by
        rw [List.countP_cons] at hc
        have hif : (if (fun v => decide (deg.getD v 0 = 1)) a = true then 1 else 0) = 1 := by
          simp only [decide_eq_true_eq, ha, if_pos]
        rw [hif] at hc
        omega
      refine ⟨a, List.mem_cons_self a tl, ha, ?_⟩
      intro x y hx
      rw [List.foldl_cons, if_pos ha, if_neg hx]
      exact pickFold_no_hit deg tl
        (fun v hv hdv =>
          absurd (decide_eq_true hdv) (List.countP_eq_zero.mp htl v hv)) (x, (a : Int))
    · have htl : tl.countP (fun v => deg.getD v 0 = 1) = 1 := by
        rw [List.countP_cons] at hc
        have hif : (if (fun v => decide (deg.getD v 0 = 1)) a = true then 1 else 0) = 0 := by
          simp only [decide_eq_true_eq, ha, if_false]
        rw [hif] at hc
        omega
      obtain ⟨b, hb, hdb, hfold⟩ := ih htl
      exact ⟨b, List.mem_cons_of_mem _ hb, hdb, fun x y hx => by
        rw [List.foldl_cons, if_neg ha]
        exact hfold x y hx⟩

/-- With exactly two degree-one entries along a duplicate-free scan list,
the pick fold started at (-1,-1) returns the two distinct degree-one
nodes in scan order. -/
theorem pickFold_two_hits (deg : List Nat) (l : List Nat) (hnd : l.Nodup)
    (hc : l.countP (fun v => deg.getD v 0 = 1) = 2) :
    ∃ a b, a ∈ l ∧ b ∈ l ∧ a ≠ b ∧ deg.getD a 0 = 1 ∧ deg.getD b 0 = 1 ∧
      l.foldl
        (fun (ns : Int × Int) v =>
          if deg.getD v 0 = 1 then
            if ns.1 < 0 then ((v : Int), ns.2) else (ns.1, (v : Int))
          else ns) (-1, -1) = ((a : Int), (b : Int)) := by
  induction l with
  | nil => simp at hc
  | cons a tl ih =>
    by_cases ha : deg.getD a 0 = 1
    · have htl : tl.countP (fun v => deg.getD v 0 = 1) = 1 := by
        rw [List.countP_cons] at hc
        have hif : (if (fun v => decide (deg.getD v 0 = 1)) a = true then 1 else 0) = 1 := by
          simp only [decide_eq_true_eq, ha, if_pos]
        rw [hif] at hc
        omega
      obtain ⟨b, hb, hdb, hfold⟩ := pickFold_one_hit deg tl htl
      refine ⟨a, b, List.mem_cons_self a tl, List.mem_cons_of_mem _ hb, ?_, ha, hdb, ?_⟩
      · intro hab
        exact (List.nodup_cons.mp hnd).1 (hab.symm ▸ hb)
      · rw [List.foldl_cons, if_pos ha, if_pos (by norm_num : (-1 : Int) < 0)]
        exact hfold (a : Int) (-1) (Int.natCast_nonneg a).not_lt
    · have htl : tl.countP (fun v => deg.getD v 0 = 1) = 2 := by
        rw [List.countP_cons] at hc
        have hif : (if (fun v => decide (deg.getD v 0 = 1)) a = true then 1 else 0) = 0 := by
          simp only [decide_eq_true_eq, ha, if_false]
        rw [hif] at hc
        omega
      obtain ⟨x, y, hx, hy, hxy, hdx, hdy, hfold⟩ := ih (List.nodup_cons.mp hnd).2 htl
      exact ⟨x, y, List.mem_cons_of_mem _ hx, List.mem_cons_of_mem _ hy, hxy, hdx, hdy, by
        rw [List.foldl_cons, if_neg ha]
        exact hfold⟩

/-- With exactly two degree-one nodes below n, pickDegreeOneNodes returns
the two distinct degree-one nodes. -/
theorem pickDegreeOneNodes_two (deg : List Nat) (n : Nat)
    (hc : (List.range n).countP (fun v => deg.getD v 0 = 1) = 2) :
    ∃ a b : Nat, a ≠ b ∧ deg.getD a 0 = 1 ∧ deg.getD b 0 = 1 ∧
      a < n ∧ b < n ∧ pickDegreeOneNodes deg n = ((a : Int), (b : Int)) := by
  obtain ⟨a, b, hain, hbin, hab, hda, hdb, hfold⟩ :=
    pickFold_two_hits deg (List.range n) (List.nodup_range n) hc
  exact ⟨a, b, hab, hda, hdb, List.mem_range.mp hain, List.mem_range.mp hbin, hfold⟩

/-- Claim C5: the general one-column handler reports graphic exactly when
precisely two nodes have degree one in the sub-edge-set induced by the row
edges of the rows with a nonzero in the new column, and on success it
connects two distinct degree-one nodes directly by the new column edge. -/
theorem addToGraph1Column_characterization
    (g : CMRGraph) (re ce : List Nat) (bR bC : Nat) (nz : List Nat)
    (isG : Bool) (g' : CMRGraph) (re' ce' : List Nat)
    (hres : addToGraph1Column g re ce bR bC nz = some (isG, g', re', ce'))
    (hend : ∀ u ∈ touchedEndpoints g re nz, u < g.numNodes)
    (hfreed : ∀ e ∈ g.freed, e < g.edgeSlots.length)
    (hbC : bC < ce.length) :
    (isG = true ↔
      (List.range g.numNodes).countP
        (fun v => inducedDegree g re nz v = 1) = 2) ∧
    (isG = true → ∃ n1 n2, n1 ≠ n2 ∧
      inducedDegree g re nz n1 = 1 ∧ inducedDegree g re nz n2 = 1 ∧
      g'.edgeSlots.getD (ce'.getD bC 0) none = some (n1, n2)) := by
  have key := degreeFold_eq_bumpFold g re nz (List.replicate g.numNodes 0, 0)
  obtain ⟨hlen, hdeg, hcl⟩ :=
    bumpFold_characterization g.numNodes (touchedEndpoints g re nz) hend
  have hcountEq :
      (List.range g.numNodes).countP
        (fun v => ((touchedEndpoints g re nz).foldl bumpStep
          (List.replicate g.numNodes 0, 0)).1.getD v 0 = 1) =
      (List.range g.numNodes).countP (fun v => inducedDegree g re nz v = 1) := by
    refine List.countP_congr (fun v _ => ?_)
    simp only [decide_eq_true_eq, hdeg v, inducedDegree]
  simp only [addToGraph1Column, key] at hres
  split at hres
  · exact absurd hres (by simp)
  · split at hres
    · -- success branch: the leaf counter is 2
      rename_i h2
      simp only [Option.some.injEq, Prod.mk.injEq] at hres
      obtain ⟨hisG, hg', hre', hce'⟩ := hres
      have hc2 : (List.range g.numNodes).countP
          (fun v => ((touchedEndpoints g re nz).foldl bumpStep
            (List.replicate g.numNodes 0, 0)).1.getD v 0 = 1) = 2 := by
        rw [← hcl]; exact h2
      constructor
      · rw [← hisG, ← hcountEq]
        exact iff_of_true rfl hc2
      · intro _
        obtain ⟨a, b, hab, hda, hdb, _, _, hpick⟩ :=
          pickDegreeOneNodes_two _ g.numNodes hc2
        rw [hpick] at hg' hce'
        refine ⟨a, b, hab, ?_, ?_, ?_⟩
        · rw [inducedDegree, ← hdeg a]; exact hda
        · rw [inducedDegree, ← hdeg b]; exact hdb
        · rw [← hg', ← hce', getD_set_self _ _ _ _ hbC]
          simp only [Int.toNat_natCast]
          cases hf : g.freed with
          | nil =>
            simp only [CMRgraphAddEdge, hf]
            rw [List.getD_eq_getElem?_getD, List.getElem?_concat_length]
            rfl
          | cons e rest =>
            have he : e < g.edgeSlots.length := hfreed e (by rw [hf]; simp)
            simp only [CMRgraphAddEdge, hf]
            exact getD_set_self _ _ _ _ he
    · -- failure branch: the leaf counter is not 2
      rename_i h2
      simp only [Option.some.injEq, Prod.mk.injEq] at hres
      obtain ⟨hisG, _, _, _⟩ := hres
      constructor
      · rw [← hisG, ← hcountEq]
        exact iff_of_false (by simp) (by rw [← hcl]; exact h2)
      · intro hisG2
        rw [← hisG] at hisG2
        simp at hisG2

/-- Witness for C5: extending the wheel of wheelMatrix3 by a column with
nonzeros in rows 0 and 1 succeeds; the two touched row edges (the spokes
at nodes 2 and 1) leave exactly nodes 1 and 2 with degree one and the new
column edge joins them. -/
theorem addToGraph1Column_characterization_witness :
    (true = true ↔
      (List.range wheelGraph3.numNodes).countP
        (fun v => inducedDegree wheelGraph3 [1, 5, 3] [0, 1] v = 1) = 2) ∧
    (true = true → ∃ n1 n2, n1 ≠ n2 ∧
      inducedDegree wheelGraph3 [1, 5, 3] [0, 1] n1 = 1 ∧
      inducedDegree wheelGraph3 [1, 5, 3] [0, 1] n2 = 1 ∧
      (({ numNodes := 4,
          edgeSlots := [some (1, 2), some (0, 2), some (2, 3), some (0, 3),
            some (3, 1), some (0, 1), some (1, 2)],
          freed := [] } : CMRGraph).edgeSlots.getD
        (([0, 2, 4, 6] : List Nat).getD 3 0) none) = some (n1, n2)) :=
  addToGraph1Column_characterization wheelGraph3 [1, 5, 3] [0, 2, 4, 9] 3 3 [0, 1]
    true
    { numNodes := 4,
      edgeSlots := [some (1, 2), some (0, 2), some (2, 3), some (0, 3),
        some (3, 1), some (0, 1), some (1, 2)],
      freed := [] }
    [1, 5, 3] [0, 2, 4, 6]
    (by decide) (by decide) (by decide) (by decide)

/-! Claim C7: what findParallel's exact comparison guarantees. -/

/-- The nonzero support of a row restricted to the processed column
prefix. -/
def restrictedSupport (m : CMR_CHRMAT) (row bound : Nat) : List Nat :=
  (rowEntries m row).filter (fun c => c < bound)

/-- Auxiliary: the empty list starts every list. -/
theorem startsNil {α : Type} (l : List α) : [] <+: l := ⟨l, rfl⟩

/-- Auxiliary: consing the same head preserves the starts-with relation. -/
theorem startsCons {α : Type} (a : α) (l1 l2 : List α) (h : l1 <+: l2) :
    (a :: l1) <+: (a :: l2) := by
  obtain ⟨t, ht⟩ := h
  exact ⟨t, by rw [← ht]; rfl⟩

/-- Auxiliary: an initial segment of equal length is the whole list. -/
theorem startsEqOfLength {α : Type} (l1 l2 : List α) (h : l1 <+: l2)
    (hl : l1.length = l2.length) : l1 = l2 := by
  obtain ⟨t, ht⟩ := h
  have hlen := congrArg List.length ht
  simp only [List.length_append] at hlen
  have ht0 : t.length = 0 := by omega
  have htnil : t = [] := List.length_eq_zero.mp ht0
  rw [htnil, List.append_nil] at ht
  exact ht

/-- Auxiliary: on a strictly sorted list whose entries are all at least
the bound, the bounded filter is empty. -/
theorem filter_lt_nil_of_sorted_ge (N a : Nat) (l : List Nat)
    (hs : List.Sorted (fun x y => x < y) (a :: l)) (ha : N ≤ a) :
    (a :: l).filter (fun c => c < N) = [] := by
  rw [List.filter_eq_nil_iff]
  intro x hx
  simp only [decide_eq_true_eq, not_lt]
  rcases List.mem_cons.mp hx with rfl | hxl
  · exact ha
  · exact le_of_lt (lt_of_le_of_lt ha ((List.sorted_cons.mp hs).1 x hxl))

/-- Auxiliary: on a strictly sorted list the bounded scan and the bounded
filter agree. -/
theorem takeWhile_eq_filter_sorted (N : Nat) (l : List Nat)
    (hs : List.Sorted (fun x y => x < y) l) :
    l.takeWhile (fun c => c < N) = l.filter (fun c => c < N) := by
  induction l with
  | nil => rfl
  | cons a tl ih =>
    by_cases ha : a < N
    · have hd : (decide (a < N)) = true := decide_eq_true ha
      simp only [List.takeWhile_cons, List.filter_cons, hd, if_true]
      rw [ih (List.sorted_cons.mp hs).2]
    · rw [filter_lt_nil_of_sorted_ge N a tl hs (not_lt.mp ha)]
      simp [List.takeWhile_cons, ha]

/-- The lockstep comparison accepts only lists whose restricted supports
are comparable: one is an initial segment of the other. -/
theorem lockstep_comparable (N : Nat) (l1 l2 : List Nat)
    (hs1 : List.Sorted (fun x y => x < y) l1)
    (hs2 : List.Sorted (fun x y => x < y) l2)
    (hm : entriesLockstepMatch N l1 l2 = true) :
    (l1.filter (fun c => c < N)) <+: (l2.filter (fun c => c < N)) ∨
    (l2.filter (fun c => c < N)) <+: (l1.filter (fun c => c < N)) := by
  induction l1 generalizing l2 with
  | nil => exact Or.inl (startsNil _)
  | cons c cs ih =>
    cases l2 with
    | nil => exact Or.inr (startsNil _)
    | cons c2 cs2 =>
      rw [entriesLockstepMatch] at hm
      by_cases hbig : N ≤ c ∧ N ≤ c2
      · rw [filter_lt_nil_of_sorted_ge N c cs hs1 hbig.1,
          filter_lt_nil_of_sorted_ge N c2 cs2 hs2 hbig.2]
        exact Or.inl (startsNil _)
      · rw [if_neg hbig] at hm
        by_cases hne : c ≠ c2
        · rw [if_pos hne] at hm
          exact absurd hm (by simp)
        · rw [if_neg hne] at hm
          have hc : c = c2 := not_ne_iff.mp hne
          subst hc
          have hcN : c < N := by omega
          have hcmp := ih cs2 (List.sorted_cons.mp hs1).2 (List.sorted_cons.mp hs2).2 hm
          have hd : (decide (c < N)) = true := decide_eq_true hcN
          simp only [List.filter_cons, hd, if_true]
          rcases hcmp with h | h
          · exact Or.inl (startsCons c _ _ h)
          · exact Or.inr (startsCons c _ _ h)

/-- The lockstep comparison accepts every pair of rows with equal
restricted supports: the exact filter never rejects a true match. -/
theorem lockstep_of_equal_supports (N : Nat) (l1 l2 : List Nat)
    (hs1 : List.Sorted (fun x y => x < y) l1)
    (hs2 : List.Sorted (fun x y => x < y) l2)
    (he : l1.filter (fun c => c < N) = l2.filter (fun c => c < N)) :
    entriesLockstepMatch N l1 l2 = true := by
  induction l1 generalizing l2 with
  | nil => rw [entriesLockstepMatch.eq_def]
  | cons c cs ih =>
    cases l2 with
    | nil => rw [entriesLockstepMatch.eq_def]
    | cons c2 cs2 =>
      rw [entriesLockstepMatch]
      by_cases hbig : N ≤ c ∧ N ≤ c2
      · rw [if_pos hbig]
      · rw [if_neg hbig]
        by_cases hcN : c < N
        · by_cases hc2N : c2 < N
          · have hd1 : (decide (c < N)) = true := decide_eq_true hcN
            have hd2 : (decide (c2 < N)) = true := decide_eq_true hc2N
            simp only [List.filter_cons, hd1, hd2, if_true, List.cons.injEq] at he
            rw [if_neg (by omega : ¬ c ≠ c2)]
            exact ih cs2 (List.sorted_cons.mp hs1).2 (List.sorted_cons.mp hs2).2 he.2
          · rw [filter_lt_nil_of_sorted_ge N c2 cs2 hs2 (not_lt.mp hc2N)] at he
            simp [List.filter_cons, hcN] at he
        · by_cases hc2N : c2 < N
          · rw [filter_lt_nil_of_sorted_ge N c cs hs1 (not_lt.mp hcN)] at he
            simp [List.filter_cons, hc2N] at he
          · exact absurd (And.intro (not_lt.mp hcN) (not_lt.mp hc2N)) hbig

/-- The scan of findParallel yields a row element only for a row in range
whose stored hash matches and whose entries pass the lockstep comparison;
any other outcome is the invalid element 0. -/
theorem findParallelScan_characterization (m : CMR_CHRMAT) (hashValue : Int)
    (ents : List Nat) (N : Nat) (rowH : List Int) (n start : Nat) :
    findParallelScan m hashValue ents N rowH n start = 0 ∨
    ∃ r2, start ≤ r2 ∧ r2 < start + n ∧
      findParallelScan m hashValue ents N rowH n start = CMRrowToElement r2 ∧
      rowH.getD r2 0 = hashValue ∧
      entriesLockstepMatch N ents (rowEntries m r2) = true := by
  induction n generalizing start with
  | zero => exact Or.inl rfl
  | succ k ih =>
    rw [findParallelScan]
    by_cases hhit : rowH.getD start 0 = hashValue ∧
        entriesLockstepMatch N ents (rowEntries m start) = true
    · rw [if_pos hhit]
      exact Or.inr ⟨start, le_refl _, by omega, rfl, hhit.1, hhit.2⟩
    · rw [if_neg hhit]
      rcases ih (start + 1) with h | ⟨r2, h1, h2, h3, h4, h5⟩
      · exact Or.inl h
      · exact Or.inr ⟨r2, by omega, by omega, h3, h4, h5⟩

/-- If the scan of findParallel comes back empty, no row in range passed
both the hash filter and the lockstep comparison. -/
theorem findParallelScan_zero (m : CMR_CHRMAT) (hashValue : Int)
    (ents : List Nat) (N : Nat) (rowH : List Int) (n start : Nat)
    (h : findParallelScan m hashValue ents N rowH n start = 0) :
    ∀ r2, start ≤ r2 → r2 < start + n →
      ¬ (rowH.getD r2 0 = hashValue ∧
        entriesLockstepMatch N ents (rowEntries m r2) = true) := by
  induction n generalizing start with
  | zero => intro r2 h1 h2; omega
  | succ k ih =>
    rw [findParallelScan] at h
    by_cases hhit : rowH.getD start 0 = hashValue ∧
        entriesLockstepMatch N ents (rowEntries m start) = true
    · rw [if_pos hhit] at h
      exact absurd h (by simp [CMRrowToElement]; omega)
    · rw [if_neg hhit] at h
      intro r2 h1 h2
      by_cases hr2 : r2 = start
      · exact hr2 ▸ hhit
      · exact ih (start + 1) h r2 (by omega) (by omega)

/-- Counterexample to C7 as stated: on lockstepMatrix, querying row 1
(prefix support 0,1,2 — at least two prefix nonzeros) against the single
processed row 0 (prefix support 0,1) with a stored hash equal to the query
hash, findParallel returns row 0 although the restricted supports differ —
the lockstep comparison stops when row 0's entry list is exhausted — and
in particular it does not return 0 even though no processed row has equal
restricted support. -/
theorem findParallel_truncated_match_cex :
    findParallel (fun x => x) lockstepMatrix 1 1 5 [13]
        (createHashVector (fun x => x) 5) = some (CMRrowToElement 0) ∧
    restrictedSupport lockstepMatrix 0 5 ≠ restrictedSupport lockstepMatrix 1 5 ∧
    (∀ r2, r2 < 1 →
      restrictedSupport lockstepMatrix r2 5 ≠ restrictedSupport lockstepMatrix 1 5) := by
  decide

/-- Claim C7, amended: with exactly one prefix nonzero findParallel returns
that column's element directly; a row element r2 is returned only when the
lockstep comparison succeeds, which guarantees that one of the two
restricted supports is an initial segment of the other (hence exact
equality whenever they have equal length, i.e. whenever neither entry list
is exhausted strictly inside the prefix); and 0 is returned only when no
hash-matching processed row has restricted support equal to the query
row's. -/
theorem findParallel_characterization
    (proj : Int → Int) (m : CMR_CHRMAT) (row numRows N : Nat) (rowH hv : List Int)
    (hsrow : List.Sorted (fun x y => x < y) (rowEntries m row))
    (hsall : ∀ r2, r2 < numRows → List.Sorted (fun x y => x < y) (rowEntries m r2)) :
    (∀ c, restrictedSupport m row N = [c] →
      findParallel proj m row numRows N rowH hv = some (CMRcolumnToElement c)) ∧
    (∀ r2, findParallel proj m row numRows N rowH hv = some (CMRrowToElement r2) →
      ((restrictedSupport m row N <+: restrictedSupport m r2 N) ∨
        (restrictedSupport m r2 N <+: restrictedSupport m row N)) ∧
      ((restrictedSupport m row N).length = (restrictedSupport m r2 N).length →
        restrictedSupport m row N = restrictedSupport m r2 N)) ∧
    (findParallel proj m row numRows N rowH hv = some 0 →
      ∀ r2, r2 < numRows →
        rowH.getD r2 0 = hashOfList proj hv (restrictedSupport m row N) →
        restrictedSupport m r2 N ≠ restrictedSupport m row N) := by
  have htw : (rowEntries m row).takeWhile (fun c => c < N) = restrictedSupport m row N :=
    takeWhile_eq_filter_sorted N (rowEntries m row) hsrow
  refine ⟨?_, ?_, ?_⟩
  · intro c hc
    have hhead : (rowEntries m row).headD 0 = c := by
      rw [← htw] at hc
      cases hents : rowEntries m row with
      | nil => rw [hents] at hc; simp at hc
      | cons a as =>
        rw [hents, List.takeWhile_cons] at hc
        by_cases ha : a < N
        · rw [if_pos (decide_eq_true ha)] at hc
          simp at hc
          simp [hc.1]
        · rw [if_neg (by simpa using ha)] at hc
          simp at hc
    simp only [findParallel, htw, hc, hhead]
    norm_num
  · intro r2 h
    simp only [findParallel, htw] at h
    split at h
    · exact absurd h (by simp)
    · split at h
      · simp only [Option.some.injEq, CMRcolumnToElement, CMRrowToElement] at h
        omega
      · simp only [Option.some.injEq] at h
        rcases findParallelScan_characterization m
            (hashOfList proj hv (restrictedSupport m row N)) (rowEntries m row)
            N rowH numRows 0 with h0 | ⟨r2x, _, hr2xlt, heq, _, hlock⟩
        · rw [h0] at h
          simp only [CMRrowToElement] at h
          omega
        · rw [heq] at h
          have hr2x : r2x = r2 := by
            simp only [CMRrowToElement] at h
            omega
          subst hr2x
          have hcmp := lockstep_comparable N (rowEntries m row) (rowEntries m r2x)
            hsrow (hsall r2x (by omega)) hlock
          refine ⟨hcmp, ?_⟩
          intro hlen
          rcases hcmp with hp | hp
          · exact startsEqOfLength _ _ hp hlen
          · exact (startsEqOfLength _ _ hp hlen.symm).symm
  · intro h r2 hr2 hhash hne
    simp only [findParallel, htw] at h
    split at h
    · exact absurd h (by simp)
    · split at h
      · simp only [Option.some.injEq, CMRcolumnToElement] at h
        omega
      · simp only [Option.some.injEq] at h
        have := findParallelScan_zero m
          (hashOfList proj hv (restrictedSupport m row N)) (rowEntries m row)
          N rowH numRows 0 h r2 (by omega) (by omega)
        exact this ⟨hhash, lockstep_of_equal_supports N (rowEntries m row)
          (rowEntries m r2) hsrow (hsall r2 hr2) hne.symm⟩

/-- Witness for C7's amended theorem: on lockstepMatrix the returned row 0
has a restricted support that is an initial segment of the query row's. -/
theorem findParallel_characterization_witness :
    ((restrictedSupport lockstepMatrix 1 5 <+: restrictedSupport lockstepMatrix 0 5) ∨
      (restrictedSupport lockstepMatrix 0 5 <+: restrictedSupport lockstepMatrix 1 5)) ∧
    ((restrictedSupport lockstepMatrix 1 5).length =
        (restrictedSupport lockstepMatrix 0 5).length →
      restrictedSupport lockstepMatrix 1 5 = restrictedSupport lockstepMatrix 0 5) :=
  (findParallel_characterization (fun x => x) lockstepMatrix 1 1 5 [13]
    (createHashVector (fun x => x) 5) (by decide)
    (fun r2 hr2 => by interval_cases r2; decide)).2.1 0 (by decide)

/-! Claim C8: node and edge counts of the wheel builder. -/

/-- What one rim-walk iteration does to the state: on a graph with no
freed edge slots it adds exactly two live edge slots, one node unless the
walk closes, keeps both edge-map lengths, rewrites only the current row's
and column's edge-map entries, and writes valid edge identifiers there
when the entries are in range. -/
theorem wheelStep_spec (m t : CMR_CHRMAT) (rw3 cw3 : Option Nat)
    (fr c : Nat) (st : WheelState) (hfreed : st.graph.freed = []) :
    ((wheelStep m t rw3 cw3 fr c st).1.graph.freed = []) ∧
    ((wheelStep m t rw3 cw3 fr c st).1.graph.edgeSlots.length =
      st.graph.edgeSlots.length + 2) ∧
    ((wheelStep m t rw3 cw3 fr c st).1.graph.numNodes =
      st.graph.numNodes + (if (wheelStep m t rw3 cw3 fr c st).2 = 0 then 0 else 1)) ∧
    ((wheelStep m t rw3 cw3 fr c st).1.rowEdges.length = st.rowEdges.length) ∧
    ((wheelStep m t rw3 cw3 fr c st).1.columnEdges.length = st.columnEdges.length) ∧
    ((∀ x ∈ st.graph.edgeSlots, x.isSome = true) →
      ∀ x ∈ (wheelStep m t rw3 cw3 fr c st).1.graph.edgeSlots, x.isSome = true) ∧
    (∀ r, r ≠ st.lastRow →
      (wheelStep m t rw3 cw3 fr c st).1.rowEdges.getD r 0 = st.rowEdges.getD r 0) ∧
    (¬ st.lastRow < st.rowEdges.length →
      (wheelStep m t rw3 cw3 fr c st).1.rowEdges.getD st.lastRow 0 =
        st.rowEdges.getD st.lastRow 0) ∧
    (st.lastRow < st.rowEdges.length →
      (wheelStep m t rw3 cw3 fr c st).1.rowEdges.getD st.lastRow 0 <
        (wheelStep m t rw3 cw3 fr c st).1.graph.edgeSlots.length) ∧
    (∀ cc, cc ≠ st.lastColumn →
      (wheelStep m t rw3 cw3 fr c st).1.columnEdges.getD cc 0 =
        st.columnEdges.getD cc 0) ∧
    (¬ st.lastColumn < st.columnEdges.length →
      (wheelStep m t rw3 cw3 fr c st).1.columnEdges.getD st.lastColumn 0 =
        st.columnEdges.getD st.lastColumn 0) ∧
    (st.lastColumn < st.columnEdges.length →
      (wheelStep m t rw3 cw3 fr c st).1.columnEdges.getD st.lastColumn 0 <
        (wheelStep m t rw3 cw3 fr c st).1.graph.edgeSlots.length) := by
  obtain ⟨⟨nn, slots, fl⟩, re, ce, lrn, lr, lc⟩ := st
  simp only at hfreed
  subst hfreed
  simp only [wheelStep, CMRgraphAddNode, CMRgraphAddEdge]
  by_cases h0 :
      wheelNextRow t rw3 cw3 lr (wheelNextColumn m rw3 cw3 lr lc) = 0 <;>
    simp only [h0, if_true, if_false, ite_true, ite_false] <;>
  · refine ⟨trivial, ?_, by simp, ?_, ?_, ?_, ?_, ?_, ?_, ?_, ?_, ?_⟩
    · simp only [List.length_append, List.length_singleton]
    · split <;> simp [List.length_set]
    · split <;> simp [List.length_set]
    · intro hall x hx
      simp only [List.mem_append, List.mem_singleton] at hx
      rcases hx with (hx | hx) | hx
      · exact hall x hx
      · rw [hx]; rfl
      · rw [hx]; rfl
    · intro r hr
      split <;> exact getD_set_ne _ _ _ _ _ (fun h => hr h.symm)
    · intro hlen
      split <;>
      · rw [List.getD_eq_getElem?_getD,
          List.getElem?_eq_none (by rw [List.length_set]; omega), Option.getD_none,
          List.getD_eq_getElem?_getD, List.getElem?_eq_none (by omega), Option.getD_none]
    · intro hlen
      split <;>
      · rw [getD_set_self _ _ _ _ hlen]
        simp only [List.length_append, List.length_singleton]
        omega
    · intro cc hcc
      split <;> exact getD_set_ne _ _ _ _ _ (fun h => hcc h.symm)
    · intro hlen
      split <;>
      · rw [List.getD_eq_getElem?_getD,
          List.getElem?_eq_none (by rw [List.length_set]; omega), Option.getD_none,
          List.getD_eq_getElem?_getD, List.getElem?_eq_none (by omega), Option.getD_none]
    · intro hlen
      split <;>
      · rw [getD_set_self _ _ _ _ hlen]
        simp only [List.length_append, List.length_singleton]
        omega

/-- The (row, column) pairs visited by the rim walk, one per loop
iteration, driven by the same wheelStep as the loop itself. -/
def wheelWalkTrace (m t : CMR_CHRMAT) (rw3 cw3 : Option Nat)
    (firstRimNode centerNode : Nat) : Nat → WheelState → Option (List (Nat × Nat))
  | 0, _ => none
  | fuel + 1, st =>
    let s := wheelStep m t rw3 cw3 firstRimNode centerNode st
    if s.2 = 0 then some [(st.lastRow, st.lastColumn)]
    else
      match wheelWalkTrace m t rw3 cw3 firstRimNode centerNode fuel s.1 with
      | none => none
      | some l => some ((st.lastRow, st.lastColumn) :: l)

/-- A successful rim-walk trace is never empty. -/
theorem wheelWalkTrace_ne_nil (m t : CMR_CHRMAT) (rw3 cw3 : Option Nat)
    (fr c fuel : Nat) (st : WheelState) (tr : List (Nat × Nat))
    (h : wheelWalkTrace m t rw3 cw3 fr c fuel st = some tr) : 1 ≤ tr.length := by
  cases fuel with
  | zero => exact absurd h (by rw [wheelWalkTrace]; simp)
  | succ k =>
    rw [wheelWalkTrace] at h
    split at h
    · simp only [Option.some.injEq] at h
      rw [← h]
      simp
    · split at h
      · exact absurd h (by simp)
      · simp only [Option.some.injEq] at h
        rw [← h]
        simp

/-- Counting invariant of the rim-walk loop: along a walk with trace tr
the loop succeeds, adds one rim node per iteration except the closing one
and exactly two live edge slots per iteration, keeps the lengths of both
edge maps, and the edge-map entries of all visited rows and columns (when
in range) hold valid edge identifiers; all other entries either stay
untouched or also hold valid identifiers. -/
theorem wheelLoop_counts (m t : CMR_CHRMAT) (rw3 cw3 : Option Nat) (fr c : Nat) :
    ∀ (fuel : Nat) (st : WheelState) (tr : List (Nat × Nat)),
      wheelWalkTrace m t rw3 cw3 fr c fuel st = some tr →
      st.graph.freed = [] →
      ∃ st', wheelLoop m t rw3 cw3 fr c fuel st = some st' ∧
        st'.graph.numNodes = st.graph.numNodes + (tr.length - 1) ∧
        st'.graph.edgeSlots.length = st.graph.edgeSlots.length + 2 * tr.length ∧
        st'.graph.freed = [] ∧
        st'.rowEdges.length = st.rowEdges.length ∧
        st'.columnEdges.length = st.columnEdges.length ∧
        ((∀ x ∈ st.graph.edgeSlots, x.isSome = true) →
          ∀ x ∈ st'.graph.edgeSlots, x.isSome = true) ∧
        (∀ r, st'.rowEdges.getD r 0 = st.rowEdges.getD r 0 ∨
          st'.rowEdges.getD r 0 < st'.graph.edgeSlots.length) ∧
        (∀ cc, st'.columnEdges.getD cc 0 = st.columnEdges.getD cc 0 ∨
          st'.columnEdges.getD cc 0 < st'.graph.edgeSlots.length) ∧
        (∀ p ∈ tr, p.1 < st.rowEdges.length →
          st'.rowEdges.getD p.1 0 < st'.graph.edgeSlots.length) ∧
        (∀ p ∈ tr, p.2 < st.columnEdges.length →
          st'.columnEdges.getD p.2 0 < st'.graph.edgeSlots.length) := by
  intro fuel
  induction fuel with
  | zero =>
    intro st tr htr
    exact absurd htr (by rw [wheelWalkTrace]; simp)
  | succ k ih =>
    intro st tr htr hfreed
    obtain ⟨hsfreed, hslen, hsnodes, hsrelen, hscelen, hssome, hsrne, hsroob, hsrok,
      hscne, hscoob, hscok⟩ := wheelStep_spec m t rw3 cw3 fr c st hfreed
    rw [wheelWalkTrace] at htr
    rw [wheelLoop]
    by_cases h0 : (wheelStep m t rw3 cw3 fr c st).2 = 0
    · rw [if_pos h0] at htr
      rw [if_pos h0]
      simp only [Option.some.injEq] at htr
      subst htr
      rw [if_pos h0] at hsnodes
      refine ⟨_, rfl, by rw [hsnodes, List.length_singleton], by
          rw [hslen, List.length_singleton], hsfreed, hsrelen, hscelen,
        hssome, ?_, ?_, ?_, ?_⟩
      · intro r
        by_cases hr : r = st.lastRow
        · subst hr
          by_cases hlen : st.lastRow < st.rowEdges.length
          · exact Or.inr (hsrok hlen)
          · exact Or.inl (hsroob hlen)
        · exact Or.inl (hsrne r hr)
      · intro cc
        by_cases hcc : cc = st.lastColumn
        · subst hcc
          by_cases hlen : st.lastColumn < st.columnEdges.length
          · exact Or.inr (hscok hlen)
          · exact Or.inl (hscoob hlen)
        · exact Or.inl (hscne cc hcc)
      · intro p hp hplen
        simp only [List.mem_singleton] at hp
        subst hp
        exact hsrok hplen
      · intro p hp hplen
        simp only [List.mem_singleton] at hp
        subst hp
        exact hscok hplen
    · rw [if_neg h0] at htr
      rw [if_neg h0]
      cases hrec : wheelWalkTrace m t rw3 cw3 fr c k (wheelStep m t rw3 cw3 fr c st).1 with
      | none => rw [hrec] at htr; exact absurd htr (by simp)
      | some l =>
        rw [hrec] at htr
        simp only [Option.some.injEq] at htr
        subst htr
        have hl1 : 1 ≤ l.length := wheelWalkTrace_ne_nil m t rw3 cw3 fr c k _ l hrec
        rw [if_neg h0] at hsnodes
        obtain ⟨st', hloop, hn, he, hf, hrl, hcl, hsome, hrpres, hcpres, hrvis, hcvis⟩ :=
          ih (wheelStep m t rw3 cw3 fr c st).1 l hrec hsfreed
        have hmono : (wheelStep m t rw3 cw3 fr c st).1.graph.edgeSlots.length ≤
            st'.graph.edgeSlots.length := by omega
        refine ⟨st', hloop, by simp only [List.length_cons]; omega,
          by simp only [List.length_cons]; omega, hf,
          by omega, by omega, fun hall => hsome (hssome hall), ?_, ?_, ?_, ?_⟩
        · intro r
          rcases hrpres r with hsame | hvalid
          · rw [hsame]
            by_cases hr : r = st.lastRow
            · subst hr
              by_cases hlen : st.lastRow < st.rowEdges.length
              · exact Or.inr (lt_of_lt_of_le (hsrok hlen) hmono)
              · exact Or.inl (hsroob hlen)
            · exact Or.inl (hsrne r hr)
          · exact Or.inr hvalid
        · intro cc
          rcases hcpres cc with hsame | hvalid
          · rw [hsame]
            by_cases hcc : cc = st.lastColumn
            · subst hcc
              by_cases hlen : st.lastColumn < st.columnEdges.length
              · exact Or.inr (lt_of_lt_of_le (hscok hlen) hmono)
              · exact Or.inl (hscoob hlen)
            · exact Or.inl (hscne cc hcc)
          · exact Or.inr hvalid
        · intro p hp hplen
          rcases List.mem_cons.mp hp with rfl | hpl
          · rcases hrpres st.lastRow with hsame | hvalid
            · rw [hsame]
              exact lt_of_lt_of_le (hsrok hplen) hmono
            · exact hvalid
          · exact hrvis p hpl (by omega)
        · intro p hp hplen
          rcases List.mem_cons.mp hp with rfl | hpl
          · rcases hcpres st.lastColumn with hsame | hvalid
            · rw [hsame]
              exact lt_of_lt_of_le (hscok hplen) hmono
            · exact hvalid
          · exact hcvis p hpl (by omega)

/-- Auxiliary: a duplicate-free list of k naturals below k contains every
natural below k. -/
theorem coverage_of_nodup_length (l : List Nat) (k : Nat) (hnd : l.Nodup)
    (hlen : l.length = k) (hlt : ∀ x ∈ l, x < k) : ∀ r, r < k → r ∈ l := by
  intro r hr
  have hsub : l.toFinset ⊆ Finset.range k := by
    intro x hx
    exact Finset.mem_range.mpr (hlt x (List.mem_toFinset.mp hx))
  have hcard : (Finset.range k).card ≤ l.toFinset.card := by
    rw [Finset.card_range, List.toFinset_card_of_nodup hnd, hlen]
  have heq : l.toFinset = Finset.range k := Finset.eq_of_subset_of_card_le hsub hcard
  have hmem : r ∈ Finset.range k := Finset.mem_range.mpr hr
  rw [← heq] at hmem
  exact List.mem_toFinset.mp hmem

/-- Counterexample to C8 as stated: the 6-by-6 block-diagonal union of two
3-by-3 wheel matrices has the claimed wheel nonzero pattern (every prefix
row and column has exactly 2 nonzeros), the rim walk terminates upon
returning to row 0, yet createWheel produces a graph with 4 nodes and 6
edges instead of the claimed k+1 = 7 nodes and 2k = 12 edges: the walk
closes after the first 3-cycle and never visits rows 3, 4, 5. -/
theorem createWheel_two_triangles_cex :
    (∀ r, r < 6 → wheelRowCount twoTrianglesMatrix 6 r = 2) ∧
    (∀ c, c < 6 → wheelRowCount twoTrianglesTranspose 6 c = 2) ∧
    (createWheel twoTrianglesMatrix twoTrianglesTranspose 6 emptyGraph
        (List.replicate 6 0) (List.replicate 6 0)).map
      (fun p => (p.1.numNodes, CMRgraphNumEdges p.1)) = some (4, 6) ∧
    ¬ (4 = 6 + 1) ∧ ¬ (6 = 2 * 6) := by
  decide

/-- Claim C8, amended: for a matrix whose leading k-by-k prefix (k at
least 3) has the wheel nonzero pattern and whose rim walk, before first
returning to row 0, visits all k rows and all k columns (each exactly
once), createWheel terminates and produces a graph with exactly k+1 nodes
and exactly 2k live edges, with a valid edge identifier recorded for each
of the k rows and each of the k columns.  (Without the single-cycle
condition on the walk the counterexample above applies.) -/
theorem createWheel_counts (m t : CMR_CHRMAT) (k : Nat) (re0 ce0 : List Nat)
    (tr : List (Nat × Nat))
    (hk3 : 3 ≤ k) (hkr : k ≤ m.numRows) (hkc : k ≤ m.numColumns)
    (hre0 : k ≤ re0.length) (hce0 : k ≤ ce0.length)
    (hrows : ∀ r ∈ List.range k,
      wheelRowCount m k r = 2 ∨ wheelRowCount m k r = 3)
    (hcols : ∀ c ∈ List.range k,
      wheelRowCount t k c = 2 ∨ wheelRowCount t k c = 3)
    (h31 : ((List.range k).filter (fun r => wheelRowCount m k r = 3)).length ≤ 1)
    (h32 : ((List.range k).filter (fun c => wheelRowCount t k c = 3)).length ≤ 1)
    (h33 : ((List.range k).filter (fun r => wheelRowCount m k r = 3)).length =
      ((List.range k).filter (fun c => wheelRowCount t k c = 3)).length)
    (htr : wheelWalkTrace m t
      ((List.range k).filter (fun r => wheelRowCount m k r = 3)).head?
      ((List.range k).filter (fun c => wheelRowCount t k c = 3)).head?
      1 0 (k + 1)
      { graph := { numNodes := 2, edgeSlots := [], freed := [] },
        rowEdges := re0, columnEdges := ce0, lastRimNode := 1, lastRow := 0,
        lastColumn := (rowEntries m 0).getD 0 0 } = some tr)
    (htrlen : tr.length = k)
    (htrrownd : (tr.map Prod.fst).Nodup)
    (htrrowlt : ∀ p ∈ tr, p.1 < k)
    (htrcolnd : (tr.map Prod.snd).Nodup)
    (htrcollt : ∀ p ∈ tr, p.2 < k) :
    ∃ g re ce, createWheel m t k emptyGraph re0 ce0 = some (g, re, ce) ∧
      g.numNodes = k + 1 ∧
      CMRgraphMemEdges g = 2 * k ∧ CMRgraphNumEdges g = 2 * k ∧
      (∀ r, r < k → re.getD r 0 < 2 * k) ∧
      (∀ c, c < k → ce.getD c 0 < 2 * k) := by
  obtain ⟨st', hloop, hn, he, _, hrl, hcl, hsome, _, _, hrvis, hcvis⟩ :=
    wheelLoop_counts m t
      ((List.range k).filter (fun r => wheelRowCount m k r = 3)).head?
      ((List.range k).filter (fun c => wheelRowCount t k c = 3)).head?
      1 0 (k + 1)
      { graph := { numNodes := 2, edgeSlots := [], freed := [] },
        rowEdges := re0, columnEdges := ce0, lastRimNode := 1, lastRow := 0,
        lastColumn := (rowEntries m 0).getD 0 0 } tr htr rfl
  have hn2 : st'.graph.numNodes = 2 + (tr.length - 1) := by simpa using hn
  have he2 : st'.graph.edgeSlots.length = 2 * tr.length := by simpa using he
  have hrl2 : st'.rowEdges.length = re0.length := by simpa using hrl
  have hcl2 : st'.columnEdges.length = ce0.length := by simpa using hcl
  refine ⟨st'.graph, st'.rowEdges, st'.columnEdges, ?_, ?_, ?_, ?_, ?_, ?_⟩
  · simp only [createWheel, CMRgraphAddNode, emptyGraph]
    rw [if_neg (not_not_intro ⟨hkr, hkc⟩), if_neg (not_not_intro hrows),
      if_neg (not_not_intro hcols), if_neg (not_not_intro ⟨h31, h32, h33⟩)]
    rw [hloop]
  · omega
  · rw [CMRgraphMemEdges]; omega
  · have hall : ∀ x ∈ st'.graph.edgeSlots, x.isSome = true := by
      refine hsome ?_
      intro x hx
      simp at hx
    rw [CMRgraphNumEdges, List.filter_eq_self.mpr hall]
    omega
  · intro r hr
    have hmem : r ∈ tr.map Prod.fst :=
      coverage_of_nodup_length (tr.map Prod.fst) k htrrownd
        (by rw [List.length_map, htrlen]) (by
          intro x hx
          obtain ⟨p, hp, hpx⟩ := List.mem_map.mp hx
          rw [← hpx]
          exact htrrowlt p hp) r hr
    obtain ⟨p, hp, hpr⟩ := List.mem_map.mp hmem
    have hdone := hrvis p hp (by show p.1 < re0.length; omega)
    rw [hpr] at hdone
    omega
  · intro cc hcc
    have hmem : cc ∈ tr.map Prod.snd :=
      coverage_of_nodup_length (tr.map Prod.snd) k htrcolnd
        (by rw [List.length_map, htrlen]) (by
          intro x hx
          obtain ⟨p, hp, hpx⟩ := List.mem_map.mp hx
          rw [← hpx]
          exact htrcollt p hp) cc hcc
    obtain ⟨p, hp, hpc⟩ := List.mem_map.mp hmem
    have hdone := hcvis p hp (by show p.2 < ce0.length; omega)
    rw [hpc] at hdone
    omega

/-- Witness for C8's amended theorem: on the 3-by-3 wheel matrix the rim
walk visits the pairs (0,0), (2,1), (1,2) — all three rows and columns —
and the builder yields 4 nodes and 6 edges with valid identifiers for
every row and column. -/
theorem createWheel_counts_witness :
    ∃ g re ce, createWheel wheelMatrix3 wheelMatrix3 3 emptyGraph [0, 0, 0] [0, 0, 0] =
        some (g, re, ce) ∧
      g.numNodes = 3 + 1 ∧
      CMRgraphMemEdges g = 2 * 3 ∧ CMRgraphNumEdges g = 2 * 3 ∧
      (∀ r, r < 3 → re.getD r 0 < 2 * 3) ∧
      (∀ c, c < 3 → ce.getD c 0 < 2 * 3) :=
  createWheel_counts wheelMatrix3 wheelMatrix3 3 [0, 0, 0] [0, 0, 0]
    [(0, 0), (2, 1), (1, 2)]
    (by decide) (by decide) (by decide) (by decide) (by decide) (by decide)
    (by decide) (by decide) (by decide) (by decide) (by decide) (by decide)
    (by decide) (by decide) (by decide) (by decide)

/-! Claim C4: outputs of the sequence driver. -/

/-- The driver loop can only advance the last graphic minor, and never to
or beyond the first unattempted step. -/
theorem driverLoop_last_bounds (proj : Int → Int) (m t : CMR_CHRMAT) (hv : List Int)
    (seqR seqC : List Nat) :
    ∀ (steps ext : Nat) (st st' : DriverState),
      driverLoop proj m t hv seqR seqC steps ext st = some st' →
      st.lastGraphicMinor + 1 = ext →
      st.lastGraphicMinor ≤ st'.lastGraphicMinor ∧ st'.lastGraphicMinor < ext + steps := by
  intro steps
  induction steps with
  | zero =>
    intro ext st st' h hlast
    rw [driverLoop] at h
    simp only [Option.some.injEq] at h
    subst h
    omega
  | succ k ih =>
    intro ext st st' h hlast
    rw [driverLoop] at h
    cases hd : dispatchStep proj m t hv seqR seqC st ext with
    | none => rw [hd] at h; exact absurd h (by simp)
    | some r =>
      obtain ⟨isG, g, re, ce⟩ := r
      rw [hd] at h
      simp only at h
      by_cases hisG : isG = true
      · rw [if_pos hisG] at h
        have := ih (ext + 1) _ st' h (by simp)
        simp only at this
        omega
      · rw [if_neg hisG] at h
        simp only [Option.some.injEq] at h
        subst h
        simp only
        omega

/-- Splitting a driver-loop run: running a+b steps first runs a steps and,
exactly when all of them were graphic, continues with the remaining b. -/
theorem driverLoop_split (proj : Int → Int) (m t : CMR_CHRMAT) (hv : List Int)
    (seqR seqC : List Nat) :
    ∀ (a b ext : Nat) (st : DriverState),
      st.lastGraphicMinor + 1 = ext →
      driverLoop proj m t hv seqR seqC (a + b) ext st =
        (match driverLoop proj m t hv seqR seqC a ext st with
          | none => none
          | some st1 =>
            if st1.lastGraphicMinor + 1 = ext + a then
              driverLoop proj m t hv seqR seqC b (ext + a) st1
            else some st1) := by
  intro a
  induction a with
  | zero =>
    intro b ext st hlast
    have h0 : driverLoop proj m t hv seqR seqC 0 ext st = some st := by
      rw [driverLoop]
    rw [h0]
    simp only [Nat.zero_add, Nat.add_zero]
    rw [if_pos hlast]
  | succ k ih =>
    intro b ext st hlast
    have hsum : k + 1 + b = (k + b) + 1 := by omega
    rw [hsum]
    simp only [driverLoop]
    cases hd : dispatchStep proj m t hv seqR seqC st ext with
    | none => rfl
    | some r =>
      obtain ⟨isG, g, re, ce⟩ := r
      by_cases hisG : isG = true
      · simp only [hisG, if_true]
        have hih := ih b (ext + 1)
          { graph := g, rowEdges := re, columnEdges := ce,
            rowHashValues := (updateHashValues proj t
              (updateHashValues proj m st.rowHashValues st.columnHashValues hv
                (seqR.getD (ext - 1) 0) (seqR.getD ext 0) (seqC.getD (ext - 1) 0)).2
              (updateHashValues proj m st.rowHashValues st.columnHashValues hv
                (seqR.getD (ext - 1) 0) (seqR.getD ext 0) (seqC.getD (ext - 1) 0)).1 hv
              (seqC.getD (ext - 1) 0) (seqC.getD ext 0) (seqR.getD ext 0)).2,
            columnHashValues := (updateHashValues proj t
              (updateHashValues proj m st.rowHashValues st.columnHashValues hv
                (seqR.getD (ext - 1) 0) (seqR.getD ext 0) (seqC.getD (ext - 1) 0)).2
              (updateHashValues proj m st.rowHashValues st.columnHashValues hv
                (seqR.getD (ext - 1) 0) (seqR.getD ext 0) (seqC.getD (ext - 1) 0)).1 hv
              (seqC.getD (ext - 1) 0) (seqC.getD ext 0) (seqR.getD ext 0)).1,
            lastGraphicMinor := ext } rfl
        rw [hih]
        have harith : ext + 1 + k = ext + (k + 1) := by omega
        rw [harith]
      · simp only [hisG, if_false, Bool.false_eq_true]
        rw [if_neg (show ¬ (st.lastGraphicMinor + 1 = ext + (k + 1)) by omega)]

/-- The driver starts with last graphic minor 0, as the wheel is minor 0. -/
theorem driverInit_last (proj : Int → Int) (m t : CMR_CHRMAT) (hv : List Int)
    (seqR seqC : List Nat) (st0 : DriverState)
    (h : driverInit proj m t hv seqR seqC = some st0) :
    st0.lastGraphicMinor = 0 := by
  simp only [driverInit] at h
  split at h
  · exact absurd h (by simp)
  · split at h
    · exact absurd h (by simp)
    · simp only [Option.some.injEq] at h
      rw [← h]

/-- Length is preserved by the edge-element fill loops. -/
theorem fillFold_length (ix : Nat → Nat) (val : Nat → Int) (n : Nat) (a0 : List Int) :
    ((List.range n).foldl (fun a i => a.set (ix i) (val i)) a0).length = a0.length := by
  induction n with
  | zero => rfl
  | succ k ih =>
    rw [List.range_succ, List.foldl_concat, List.length_set]
    exact ih

/-- A fill loop leaves positions it never writes unchanged. -/
theorem fillFold_getD_ne (ix : Nat → Nat) (val : Nat → Int) (n : Nat) (a0 : List Int)
    (j : Nat) (h : ∀ i, i < n → ix i ≠ j) :
    ((List.range n).foldl (fun a i => a.set (ix i) (val i)) a0).getD j 0 =
      a0.getD j 0 := by
  induction n with
  | zero => rfl
  | succ k ih =>
    rw [List.range_succ, List.foldl_concat,
      getD_set_ne _ _ _ _ _ (h k (by omega)), ih (fun i hi => h i (by omega))]

/-- A fill loop with injective in-range indices records every value. -/
theorem fillFold_getD_eq (ix : Nat → Nat) (val : Nat → Int) (n : Nat) (a0 : List Int)
    (hlen : ∀ i, i < n → ix i < a0.length)
    (hinj : ∀ i1 i2, i1 < n → i2 < n → ix i1 = ix i2 → i1 = i2) :
    ∀ i, i < n →
      ((List.range n).foldl (fun a i => a.set (ix i) (val i)) a0).getD (ix i) 0 =
        val i := by
  induction n with
  | zero => intro i hi; omega
  | succ k ih =>
    intro i hi
    rw [List.range_succ, List.foldl_concat]
    by_cases hik : i = k
    · subst hik
      have : ix i < ((List.range i).foldl (fun a j => a.set (ix j) (val j)) a0).length := by
        rw [fillFold_length]
        exact hlen i (by omega)
      exact getD_set_self _ _ _ _ this
    · rw [getD_set_ne _ _ _ _ _
        (fun h => hik (hinj i k (by omega) (by omega) h.symm))]
      exact ih (fun j hj => hlen j (by omega))
        (fun i1 i2 h1 h2 => hinj i1 i2 (by omega) (by omega)) i (by omega)

/-- Prefix runs of the driver loop: every step index up to the final last
graphic minor is reached by a successful prefix run, and when the loop
stopped early the very next step was dispatched and reported non-graphic. -/
theorem driverLoop_runs (proj : Int → Int) (m t : CMR_CHRMAT) (hv : List Int)
    (seqR seqC : List Nat) (st0 stF : DriverState) (total : Nat)
    (hloop : driverLoop proj m t hv seqR seqC total 1 st0 = some stF)
    (hst0 : st0.lastGraphicMinor = 0) :
    (∀ j, j ≤ stF.lastGraphicMinor → ∃ stj,
      driverLoop proj m t hv seqR seqC j 1 st0 = some stj ∧
      stj.lastGraphicMinor = j) ∧
    (stF.lastGraphicMinor < total → ∃ stL g2 re2 ce2,
      driverLoop proj m t hv seqR seqC stF.lastGraphicMinor 1 st0 = some stL ∧
      stL.lastGraphicMinor = stF.lastGraphicMinor ∧
      dispatchStep proj m t hv seqR seqC stL (stF.lastGraphicMinor + 1) =
        some (false, g2, re2, ce2)) := by
  have hb := driverLoop_last_bounds proj m t hv seqR seqC total 1 st0 stF hloop
    (by omega)
  have hpiece : ∀ j, j ≤ stF.lastGraphicMinor → ∃ stj,
      driverLoop proj m t hv seqR seqC j 1 st0 = some stj ∧
      stj.lastGraphicMinor = j := by
    intro j hj
    have hsplit := driverLoop_split proj m t hv seqR seqC j (total - j) 1 st0
      (by omega)
    rw [show j + (total - j) = total by omega, hloop] at hsplit
    cases hj1 : driverLoop proj m t hv seqR seqC j 1 st0 with
    | none => rw [hj1] at hsplit; exact absurd hsplit (by simp)
    | some stj =>
      rw [hj1] at hsplit
      simp only at hsplit
      by_cases hcond : stj.lastGraphicMinor + 1 = 1 + j
      · exact ⟨stj, rfl, by omega⟩
      · rw [if_neg hcond] at hsplit
        simp only [Option.some.injEq] at hsplit
        have hjb := driverLoop_last_bounds proj m t hv seqR seqC j 1 st0 stj hj1
          (by omega)
        rw [hsplit] at hj
        omega
  refine ⟨hpiece, ?_⟩
  intro hlt
  obtain ⟨stL, hstL, hstLlast⟩ := hpiece stF.lastGraphicMinor (le_refl _)
  have hsplit := driverLoop_split proj m t hv seqR seqC stF.lastGraphicMinor
    (total - stF.lastGraphicMinor) 1 st0 (by omega)
  rw [show stF.lastGraphicMinor + (total - stF.lastGraphicMinor) = total by omega,
    hloop, hstL] at hsplit
  simp only at hsplit
  rw [if_pos (show stL.lastGraphicMinor + 1 = 1 + stF.lastGraphicMinor by omega)]
    at hsplit
  rw [show total - stF.lastGraphicMinor = (total - stF.lastGraphicMinor - 1) + 1
    by omega] at hsplit
  rw [driverLoop] at hsplit
  cases hd : dispatchStep proj m t hv seqR seqC stL (1 + stF.lastGraphicMinor) with
  | none => rw [hd] at hsplit; exact absurd hsplit (by simp)
  | some r =>
    obtain ⟨isG, g2, re2, ce2⟩ := r
    rw [hd] at hsplit
    simp only at hsplit
    by_cases hisG : isG = true
    · exfalso
      rw [if_pos hisG] at hsplit
      have := driverLoop_last_bounds proj m t hv seqR seqC
        (total - stF.lastGraphicMinor - 1) (1 + stF.lastGraphicMinor + 1) _ stF
        hsplit.symm (by simp)
      simp only at this
      omega
    · rw [if_neg hisG] at hsplit
      have hfalse : isG = false := by
        cases isG
        · rfl
        · exact absurd rfl hisG
      subst hfalse
      exact ⟨stL, g2, re2, ce2, hstL, hstLlast, by
        rw [show stF.lastGraphicMinor + 1 = 1 + stF.lastGraphicMinor by omega]
        exact hd⟩

/-- Claim C4: the driver sets the last graphic minor to an index below the
sequence length such that all steps up to it were attempted and graphic
and, when below the final index, the next step was attempted and reported
non-graphic (later steps are never attempted); it returns the witness
graph and the edge-to-element array exactly when the entire sequence was
graphic, freeing the graph and producing no array otherwise; and on full
success the array is the inverse of the final edge maps provided those
maps are injective, mutually disjoint and within the edge range. -/
theorem CMRregularSequenceGraphic_characterization
    (proj : Int → Int) (m t : CMR_CHRMAT) (len : Nat) (seqR seqC : List Nat)
    (res : SequenceGraphicResult)
    (hres : CMRregularSequenceGraphic proj m t len seqR seqC = some res) :
    ((res.graph.isSome = true ↔ res.lastGraphicMinor + 1 = len) ∧
      (res.edgeElements.isSome = true ↔ res.lastGraphicMinor + 1 = len)) ∧
    (1 ≤ len → res.lastGraphicMinor < len) ∧
    (∃ st0, driverInit proj m t (createHashVector proj (max m.numRows m.numColumns))
        seqR seqC = some st0 ∧
      (∀ j, j ≤ res.lastGraphicMinor → ∃ stj,
        driverLoop proj m t (createHashVector proj (max m.numRows m.numColumns))
          seqR seqC j 1 st0 = some stj ∧ stj.lastGraphicMinor = j) ∧
      (res.lastGraphicMinor + 1 < len → ∃ stL g2 re2 ce2,
        driverLoop proj m t (createHashVector proj (max m.numRows m.numColumns))
          seqR seqC res.lastGraphicMinor 1 st0 = some stL ∧
        stL.lastGraphicMinor = res.lastGraphicMinor ∧
        dispatchStep proj m t (createHashVector proj (max m.numRows m.numColumns))
          seqR seqC stL (res.lastGraphicMinor + 1) = some (false, g2, re2, ce2))) ∧
    (∀ ee, res.edgeElements = some ee →
      (∀ r1 r2, r1 < m.numRows → r2 < m.numRows →
        res.rowEdges.getD r1 0 = res.rowEdges.getD r2 0 → r1 = r2) →
      (∀ c1 c2, c1 < m.numColumns → c2 < m.numColumns →
        res.columnEdges.getD c1 0 = res.columnEdges.getD c2 0 → c1 = c2) →
      (∀ r c, r < m.numRows → c < m.numColumns →
        res.rowEdges.getD r 0 ≠ res.columnEdges.getD c 0) →
      (∀ r, r < m.numRows → res.rowEdges.getD r 0 < m.numRows + m.numColumns) →
      (∀ c, c < m.numColumns → res.columnEdges.getD c 0 < m.numRows + m.numColumns) →
      (∀ r, r < m.numRows →
        ee.getD (res.rowEdges.getD r 0) 0 = CMRrowToElement r) ∧
      (∀ c, c < m.numColumns →
        ee.getD (res.columnEdges.getD c 0) 0 = CMRcolumnToElement c)) := by
  simp only [CMRregularSequenceGraphic] at hres
  cases hinit : driverInit proj m t
      (createHashVector proj (max m.numRows m.numColumns)) seqR seqC with
  | none => rw [hinit] at hres; exact absurd hres (by simp)
  | some st0 =>
    rw [hinit] at hres
    simp only at hres
    cases hloop : driverLoop proj m t
        (createHashVector proj (max m.numRows m.numColumns)) seqR seqC
        (len - 1) 1 st0 with
    | none => rw [hloop] at hres; exact absurd hres (by simp)
    | some stF =>
      rw [hloop] at hres
      simp only at hres
      have hst0last : st0.lastGraphicMinor = 0 :=
        driverInit_last proj m t _ seqR seqC st0 hinit
      have hbounds := driverLoop_last_bounds proj m t
        (createHashVector proj (max m.numRows m.numColumns)) seqR seqC
        (len - 1) 1 st0 stF hloop (by omega)
      have hruns := driverLoop_runs proj m t
        (createHashVector proj (max m.numRows m.numColumns)) seqR seqC st0 stF
        (len - 1) hloop hst0last
      by_cases hfull : stF.lastGraphicMinor + 1 = len
      · rw [if_pos hfull] at hres
        simp only [Option.some.injEq] at hres
        subst hres
        refine ⟨⟨by simp [hfull], by simp [hfull]⟩, by simp only; omega,
          ⟨st0, rfl, by simpa using hruns.1, ?_⟩, ?_⟩
        · intro habs
          simp only at habs
          omega
        · intro ee hee hrinj hcinj hdisj hrb hcb
          simp only [Option.some.injEq] at hee
          simp only at hrinj hcinj hdisj hrb hcb ⊢
          subst hee
          constructor
          · intro r hr
            rw [fillFold_getD_ne _ _ m.numColumns _ _
              (fun c hc => (hdisj r c hr hc).symm)]
            exact fillFold_getD_eq _ _ m.numRows _
              (fun i hi => by rw [List.length_replicate]; exact hrb i hi)
              (fun i1 i2 h1 h2 hx => hrinj i1 i2 h1 h2 hx) r hr
          · intro c hc
            refine fillFold_getD_eq _ _ m.numColumns _
              (fun i hi => by rw [fillFold_length, List.length_replicate]
                              exact hcb i hi)
              (fun i1 i2 h1 h2 hx => hcinj i1 i2 h1 h2 hx) c hc
      · rw [if_neg hfull] at hres
        simp only [Option.some.injEq] at hres
        subst hres
        refine ⟨⟨by simp [hfull], by simp [hfull]⟩, by simp only; omega,
          ⟨st0, rfl, by simpa using hruns.1, ?_⟩, ?_⟩
        · intro hlt
          simp only at hlt
          exact hruns.2 (by omega)
        · intro ee hee
          simp only at hee
          exact absurd hee (by simp)

/-- Witness for C4: on the 3-wheel with the length-1 sequence the driver
fully succeeds, so the witness graph is returned (last graphic minor 0 with
sequence length 1). -/
theorem CMRregularSequenceGraphic_characterization_witness :
    CMRregularSequenceGraphic (fun x => x) wheelMatrix3 wheelMatrix3 1 [3] [3] =
      some wheelResult3 ∧
    (wheelResult3.graph.isSome = true ↔ wheelResult3.lastGraphicMinor + 1 = 1) :=
  ⟨by decide,
    (CMRregularSequenceGraphic_characterization (fun x => x) wheelMatrix3
      wheelMatrix3 1 [3] [3] wheelResult3 (by decide)).1.1⟩

/-! Claim C1 machinery: the articulation candidate array holds only 0 and
1, the marking loop counts exactly the articulation points lying on all
pruned paths, and an auxiliary graph without edges is always bipartite. -/

/-- A value written by List.set is read back as either the old value or the
written value. -/
theorem getD_set_or (c : List Nat) (u v a : Nat) :
    (c.set u a).getD v 0 = c.getD v 0 ∨ (c.set u a).getD v 0 = a := by
  by_cases huv : v = u
  · subst huv
    by_cases hl : v < c.length
    · exact Or.inr (getD_set_self c v a 0 hl)
    · rw [List.set_eq_of_length_le (le_of_not_lt hl)]
      exact Or.inl rfl
  · exact Or.inl (getD_set_ne c u v a 0 (fun h => huv h.symm))

/-- A nonzero getD read lies within the list. -/
theorem getD_pos_lt (c : List Nat) (v : Nat) (h : c.getD v 0 ≠ 0) :
    v < c.length := by
  by_contra hlt
  rw [List.getD_eq_getElem?_getD, List.getElem?_eq_none (by omega)] at h
  exact h rfl

/-- A list counting exactly one element satisfying a predicate has no two
distinct such elements. -/
theorem countP_eq_one_unique {l : List Nat} {P : Nat → Bool}
    (h1 : l.countP P = 1) {a b : Nat} (ha : a ∈ l) (hb : b ∈ l)
    (hpa : P a = true) (hpb : P b = true) : a = b := by
  have hfa : a ∈ l.filter P := List.mem_filter.mpr ⟨ha, hpa⟩
  have hfb : b ∈ l.filter P := List.mem_filter.mpr ⟨hb, hpb⟩
  have hlen : (l.filter P).length = 1 := by
    rw [← List.countP_eq_length_filter]
    exact h1
  obtain ⟨x, hx⟩ := List.length_eq_one.mp hlen
  rw [hx, List.mem_singleton] at hfa hfb
  rw [hfa, hfb]

/-- Marking one node preserves the old-or-one value relation of a
candidate array. -/
theorem cand_after_mark (c base : List Nat) (node : Nat)
    (h1 : c.length = base.length)
    (h2 : ∀ v, c.getD v 0 = base.getD v 0 ∨ c.getD v 0 = 1)
    (c' : List Nat) (hc : c' = c ∨ c' = c.set node 1) :
    c'.length = base.length ∧
    ∀ v, c'.getD v 0 = base.getD v 0 ∨ c'.getD v 0 = 1 := by
  rcases hc with rfl | rfl
  · exact ⟨h1, h2⟩
  · refine ⟨by rw [List.length_set, h1], fun v => ?_⟩
    rcases getD_set_or c node v 1 with h | h
    · rw [h]; exact h2 v
    · rw [h]; exact Or.inr rfl

/-- The articulation visit function only writes 1 into the candidate array
and preserves its length, given that the recursive calls do. -/
theorem dfsAPVisit_cand (en : List Bool)
    (recur : Nat → Int → APState → APState × Int) (node : Nat)
    (parentNode discNode : Int) (base : List Nat)
    (hrec : ∀ nd pr s, (recur nd pr s).1.cand.length = s.cand.length ∧
      ∀ v, (recur nd pr s).1.cand.getD v 0 = s.cand.getD v 0 ∨
        (recur nd pr s).1.cand.getD v 0 = 1)
    (acc : APState × Int × Nat) (p : Nat × Nat)
    (hlen : acc.1.cand.length = base.length)
    (hval : ∀ v, acc.1.cand.getD v 0 = base.getD v 0 ∨ acc.1.cand.getD v 0 = 1) :
    (dfsAPVisit en recur node parentNode discNode acc p).1.cand.length =
      base.length ∧
    ∀ v, (dfsAPVisit en recur node parentNode discNode acc p).1.cand.getD v 0 =
        base.getD v 0 ∨
      (dfsAPVisit en recur node parentNode discNode acc p).1.cand.getD v 0 = 1 := by
  simp only [dfsAPVisit]
  split
  · split
    · split
      · exact ⟨hlen, hval⟩
      · exact ⟨hlen, hval⟩
    · obtain ⟨hrl, hrv⟩ := hrec p.2 (node : Int) acc.1
      split
      · refine ⟨by rw [List.length_set, hrl, hlen], fun v => ?_⟩
        rcases getD_set_or (recur p.2 (node : Int) acc.1).1.cand node v 1 with h | h
        · rw [h]
          rcases hrv v with h2 | h2
          · rw [h2]; exact hval v
          · rw [h2]; exact Or.inr rfl
        · rw [h]; exact Or.inr rfl
      · refine ⟨by rw [hrl, hlen], fun v => ?_⟩
        rcases hrv v with h2 | h2
        · rw [h2]; exact hval v
        · rw [h2]; exact Or.inr rfl
  · exact ⟨hlen, hval⟩

/-- The articulation DFS only writes 1 into the candidate array and
preserves its length. -/
theorem dfsArticulationPoint_cand (g : CMRGraph) (en : List Bool) :
    ∀ (fuel : Nat) (node : Nat) (parentNode : Int) (st : APState),
      (dfsArticulationPoint g en fuel node parentNode st).1.cand.length =
        st.cand.length ∧
      ∀ v, (dfsArticulationPoint g en fuel node parentNode st).1.cand.getD v 0 =
          st.cand.getD v 0 ∨
        (dfsArticulationPoint g en fuel node parentNode st).1.cand.getD v 0 = 1 := by
  intro fuel
  induction fuel with
  | zero => exact fun node parentNode st => ⟨rfl, fun v => Or.inl rfl⟩
  | succ k ih =>
    intro node parentNode st
    have hfold : ∀ (l : List (Nat × Nat)) (discNode : Int) (acc : APState × Int × Nat),
        acc.1.cand.length = st.cand.length →
        (∀ v, acc.1.cand.getD v 0 = st.cand.getD v 0 ∨ acc.1.cand.getD v 0 = 1) →
        (l.foldl (dfsAPVisit en (dfsArticulationPoint g en k) node parentNode
            discNode) acc).1.cand.length = st.cand.length ∧
        ∀ v, (l.foldl (dfsAPVisit en (dfsArticulationPoint g en k) node parentNode
            discNode) acc).1.cand.getD v 0 = st.cand.getD v 0 ∨
          (l.foldl (dfsAPVisit en (dfsArticulationPoint g en k) node parentNode
            discNode) acc).1.cand.getD v 0 = 1 := by
      intro l
      induction l with
      | nil => exact fun discNode acc h1 h2 => ⟨h1, h2⟩
      | cons q tl ihl =>
        intro discNode acc h1 h2
        rw [List.foldl_cons]
        obtain ⟨h1s, h2s⟩ := dfsAPVisit_cand en (dfsArticulationPoint g en k)
          node parentNode discNode st.cand (fun nd pr s => ih nd pr s) acc q h1 h2
        exact ihl discNode _ h1s h2s
    simp only [dfsArticulationPoint]
    obtain ⟨h1, h2⟩ := hfold (CMRgraphInc g node) (st.time + 1)
      ({ visited := st.visited.set node true, disc := st.disc.set node (st.time + 1),
          time := st.time + 1, cand := st.cand }, st.time + 1, 0) rfl
      (fun v => Or.inl rfl)
    refine cand_after_mark _ st.cand node h1 h2 _ ?_
    split
    · exact Or.inr rfl
    · exact Or.inl rfl


/-- The articulation candidate array has length numNodes and holds only
the values 0 and 1. -/
theorem findArticulationPoints_spec (g : CMRGraph) (ce nzc : List Nat) :
    (findArticulationPoints g ce nzc).length = g.numNodes ∧
    ∀ v, (findArticulationPoints g ce nzc).getD v 0 = 0 ∨
      (findArticulationPoints g ce nzc).getD v 0 = 1 := by
  simp only [findArticulationPoints]
  obtain ⟨h1, h2⟩ := dfsArticulationPoint_cand g
    (nzc.foldl (fun en c => en.set (ce.getD c 0) false)
      ((List.range (CMRgraphMemEdges g)).map (fun e => (g.edgeSlots.getD e none).isSome)))
    (g.numNodes + 1) 0 (-1)
    { visited := List.replicate g.numNodes false
      disc := List.replicate g.numNodes 0
      time := 0
      cand := List.replicate g.numNodes 0 }
  refine ⟨by rw [h1]; exact List.length_replicate _ _, fun v => ?_⟩
  rcases h2 v with h | h
  · rw [h, getD_replicate]
    exact Or.inl rfl
  · rw [h]
    exact Or.inr rfl

/-- Characterisation of one marking pass: the final counter value counts
the distinct in-range nodes of the path carrying the value i+1, those
nodes are bumped to i+2 and all others keep their value, and whenever the
counter grew the recorded split node is such a bumped node. -/
theorem markFold_spec (i : Nat) :
    ∀ (p : List Nat) (cand : List Nat) (k : Nat) (split : Int)
      (res : List Nat × Nat × Int),
      p.foldl (fun (a : List Nat × Nat × Int) v =>
          if a.1.getD v 0 = i + 1 then (a.1.set v (i + 2), a.2.1 + 1, (v : Int))
          else a) (cand, k, split) = res →
      res.1.length = cand.length ∧
      (∀ v, res.1.getD v 0 =
        if cand.getD v 0 = i + 1 ∧ v ∈ p then i + 2 else cand.getD v 0) ∧
      res.2.1 = k + (List.range cand.length).countP
        (fun v => decide (cand.getD v 0 = i + 1) && decide (v ∈ p)) ∧
      (k < res.2.1 → ∃ v, v ∈ p ∧ cand.getD v 0 = i + 1 ∧ res.2.2 = (v : Int)) ∧
      (res.2.1 = k → res.2.2 = split) := by
  intro p
  induction p with
  | nil =>
    intro cand k split res h
    rw [List.foldl_nil] at h
    subst h
    refine ⟨rfl, fun v => by simp, by simp, fun hk => absurd hk (lt_irrefl k), fun _ => rfl⟩
  | cons v p2 ihp =>
    intro cand k split res h
    rw [List.foldl_cons] at h
    by_cases hv : cand.getD v 0 = i + 1
    · simp only [hv, if_pos] at h
      have hvlt : v < cand.length := getD_pos_lt cand v (by rw [hv]; omega)
      obtain ⟨ih1, ih2, ih3, ih4, ih5⟩ := ihp (cand.set v (i + 2)) (k + 1) (v : Int) res h
      have hsetv : (cand.set v (i + 2)).getD v 0 = i + 2 := getD_set_self cand v (i + 2) 0 hvlt
      refine ⟨by rw [ih1, List.length_set], fun u => ?_, ?_, ?_, ?_⟩
      · by_cases huv : u = v
        · subst huv
          have := ih2 u
          rw [hsetv, if_neg (fun hc => by omega)] at this
          rw [this, if_pos ⟨hv, List.mem_cons_self u p2⟩]
        · have hne : (cand.set v (i + 2)).getD u 0 = cand.getD u 0 :=
            getD_set_ne cand v u (i + 2) 0 (fun hh => huv hh.symm)
          have := ih2 u
          rw [hne] at this
          by_cases hc : cand.getD u 0 = i + 1 ∧ u ∈ p2
          · rw [if_pos hc] at this
            rw [this, if_pos ⟨hc.1, List.mem_cons_of_mem v hc.2⟩]
          · rw [if_neg hc] at this
            rw [this, if_neg (fun hcc => hc ⟨hcc.1, by
              rcases List.mem_cons.mp hcc.2 with hh | hh
              · exact absurd hh huv
              · exact hh⟩)]
      · rw [List.length_set] at ih3
        have hupd := countP_update (List.range cand.length) (List.nodup_range _) v
          (List.mem_range.mpr hvlt)
          (fun u => decide (cand.getD u 0 = i + 1) && decide (u ∈ v :: p2))
          (fun u => decide ((cand.set v (i + 2)).getD u 0 = i + 1) && decide (u ∈ p2))
          (fun u _ huv => by
            have h1 : (cand.set v (i + 2)).getD u 0 = cand.getD u 0 :=
              getD_set_ne cand v u (i + 2) 0 (fun hh => huv hh.symm)
            have h2 : decide (u ∈ p2) = decide (u ∈ v :: p2) :=
              decide_eq_decide.mpr (by rw [List.mem_cons]; exact (or_iff_right huv).symm)
            simp only [h1, h2])
        rw [if_pos (show (decide (cand.getD v 0 = i + 1) && decide (v ∈ v :: p2)) = true by
            simp only [Bool.and_eq_true, decide_eq_true_eq]
            exact ⟨hv, List.mem_cons_self v p2⟩),
          if_neg (show ¬ ((decide ((cand.set v (i + 2)).getD v 0 = i + 1) &&
              decide (v ∈ p2)) = true) by
            simp only [Bool.and_eq_true, decide_eq_true_eq, hsetv]
            exact fun hc => absurd hc.1 (by omega))] at hupd
        rw [ih3]
        omega
      · intro hk
        rcases Nat.lt_or_ge (k + 1) res.2.1 with hlt | hge
        · obtain ⟨u, hup, hu1, hue⟩ := ih4 hlt
          have huv : u ≠ v := fun hh => by rw [hh, hsetv] at hu1; omega
          rw [getD_set_ne cand v u (i + 2) 0 (fun hh => huv hh.symm)] at hu1
          exact ⟨u, List.mem_cons_of_mem v hup, hu1, hue⟩
        · have heq : res.2.1 = k + 1 := by omega
          exact ⟨v, List.mem_cons_self v p2, hv, ih5 heq⟩
      · intro hk
        rw [List.length_set] at ih3
        omega
    · simp only [hv, if_neg, if_false] at h
      obtain ⟨ih1, ih2, ih3, ih4, ih5⟩ := ihp cand k split res h
      refine ⟨ih1, fun u => ?_, ?_, ?_, ih5⟩
      · by_cases huv : u = v
        · subst huv
          have := ih2 u
          rw [if_neg (fun hc => hv hc.1)] at this
          rw [this, if_neg (fun hc => hv hc.1)]
        · have := ih2 u
          by_cases hc : cand.getD u 0 = i + 1 ∧ u ∈ p2
          · rw [if_pos hc] at this
            rw [this, if_pos ⟨hc.1, List.mem_cons_of_mem v hc.2⟩]
          · rw [if_neg hc] at this
            rw [this, if_neg (fun hcc => hc ⟨hcc.1, by
              rcases List.mem_cons.mp hcc.2 with hh | hh
              · exact absurd hh huv
              · exact hh⟩)]
      · rw [ih3]
        congr 1
        refine List.countP_congr (fun u _ => ?_)
        by_cases huv : u = v
        · subst huv
          simp only [decide_eq_false hv, Bool.false_and]
        · have h2 : decide (u ∈ p2) = decide (u ∈ v :: p2) :=
            decide_eq_decide.mpr (by rw [List.mem_cons]; exact (or_iff_right huv).symm)
          rw [h2]
      · intro hk
        obtain ⟨u, hup, hu1, hue⟩ := ih4 hk
        exact ⟨u, List.mem_cons_of_mem v hup, hu1, hue⟩


/-- Characterisation of the marking loop: the final counter counts the
articulation candidates lying on all paths (the early break can only fire
when that count is already zero), an empty path list leaves the split node
untouched, and a nonzero final count means the recorded split node is a
candidate lying on all paths. -/
theorem markLoop_spec :
    ∀ (ps : List (List Nat)) (i : Nat) (cand : List Nat) (count : Nat) (split : Int),
      (∀ v, cand.getD v 0 ≤ i + 1) →
      count = (List.range cand.length).countP (fun v => decide (cand.getD v 0 = i + 1)) →
      (markLoop ps i cand count split).2.1 =
        (List.range cand.length).countP
          (fun v => decide (cand.getD v 0 = i + 1) && decide (∀ p ∈ ps, v ∈ p)) ∧
      (ps = [] → (markLoop ps i cand count split).2.2 = split) ∧
      (ps ≠ [] → (markLoop ps i cand count split).2.1 ≠ 0 →
        ∃ v, cand.getD v 0 = i + 1 ∧ (∀ p ∈ ps, v ∈ p) ∧
          (markLoop ps i cand count split).2.2 = (v : Int)) := by
  intro ps
  induction ps with
  | nil =>
    intro i cand count split hb hc
    rw [markLoop]
    refine ⟨?_, fun _ => rfl, fun hne _ => absurd rfl hne⟩
    show count = _
    rw [hc]
    refine List.countP_congr (fun v _ => ?_)
    simp
  | cons p rest ih =>
    intro i cand count split hb hc
    simp only [markLoop]
    obtain ⟨hm1, hm2, hm3, hm4, hm5⟩ :=
      markFold_spec i p cand 0 split (markPath i cand split p) rfl
    rw [Nat.zero_add] at hm3
    by_cases h0 : (markPath i cand split p).2.1 = 0
    · rw [if_pos h0]
      have hz : (List.range cand.length).countP
          (fun v => decide (cand.getD v 0 = i + 1) && decide (v ∈ p)) = 0 := by
        rw [← hm3]
        exact h0
      refine ⟨?_, fun h => absurd h (List.cons_ne_nil p rest), fun _ hne => absurd rfl hne⟩
      show (0 : Nat) = _
      symm
      rw [List.countP_eq_zero]
      intro v hv hpred
      rw [Bool.and_eq_true, decide_eq_true_eq, decide_eq_true_eq] at hpred
      exact (List.countP_eq_zero.mp hz) v hv (by
        rw [Bool.and_eq_true, decide_eq_true_eq, decide_eq_true_eq]
        exact ⟨hpred.1, hpred.2 p (List.mem_cons_self p rest)⟩)
    · rw [if_neg h0]
      have hb2 : ∀ v, (markPath i cand split p).1.getD v 0 ≤ (i + 1) + 1 := by
        intro v
        rw [hm2 v]
        split
        · omega
        · have := hb v
          omega
      have hc2 : (markPath i cand split p).2.1 =
          (List.range (markPath i cand split p).1.length).countP
            (fun v => decide ((markPath i cand split p).1.getD v 0 = (i + 1) + 1)) := by
        rw [hm1, hm3]
        refine List.countP_congr (fun v _ => ?_)
        by_cases hcnd : cand.getD v 0 = i + 1 ∧ v ∈ p
        · have hr := hm2 v
          rw [if_pos hcnd] at hr
          rw [decide_eq_true hcnd.1, decide_eq_true hcnd.2,
            decide_eq_true (show (markPath i cand split p).1.getD v 0 = i + 1 + 1 by
              rw [hr])]
          simp
        · have hr := hm2 v
          rw [if_neg hcnd] at hr
          rw [← Bool.decide_and, decide_eq_false hcnd,
            decide_eq_false (show ¬ (markPath i cand split p).1.getD v 0 = i + 1 + 1 by
              rw [hr]
              have := hb v
              omega)]
      obtain ⟨ihr1, ihr2, ihr3⟩ := ih (i + 1) (markPath i cand split p).1
        (markPath i cand split p).2.1 (markPath i cand split p).2.2 hb2 hc2
      refine ⟨?_, fun h => absurd h (List.cons_ne_nil p rest), ?_⟩
      · rw [ihr1, hm1]
        refine List.countP_congr (fun v _ => ?_)
        by_cases hcnd : cand.getD v 0 = i + 1 ∧ v ∈ p
        · have hr := hm2 v
          rw [if_pos hcnd] at hr
          have hiff : (∀ q ∈ p :: rest, v ∈ q) ↔ (∀ q ∈ rest, v ∈ q) := by
            rw [List.forall_mem_cons]
            exact and_iff_right hcnd.2
          rw [decide_eq_decide.mpr hiff, decide_eq_true hcnd.1,
            decide_eq_true (show (markPath i cand split p).1.getD v 0 = i + 1 + 1 by
              rw [hr])]
        · have hr := hm2 v
          rw [if_neg hcnd] at hr
          rw [← Bool.decide_and, ← Bool.decide_and,
            decide_eq_false (show ¬ ((markPath i cand split p).1.getD v 0 = i + 1 + 1 ∧
                ∀ q ∈ rest, v ∈ q) from fun hcc => by
              rw [hr] at hcc
              have := hb v
              omega),
            decide_eq_false (show ¬ (cand.getD v 0 = i + 1 ∧ ∀ q ∈ p :: rest, v ∈ q)
              from fun hcc => hcnd ⟨hcc.1, hcc.2 p (List.mem_cons_self p rest)⟩)]
      · intro _ hne
        by_cases hrest : rest = []
        · subst hrest
          obtain ⟨v, hvp, hv1, hve⟩ := hm4 (Nat.pos_of_ne_zero h0)
          refine ⟨v, hv1, ?_, ?_⟩
          · intro q hq
            rcases List.mem_cons.mp hq with rfl | hh
            · exact hvp
            · exact absurd hh (List.not_mem_nil q)
          · rw [ihr2 rfl]
            exact hve
        · obtain ⟨v, hv1, hvall, hve⟩ := ihr3 hrest hne
          by_cases hcnd : cand.getD v 0 = i + 1 ∧ v ∈ p
          · exact ⟨v, hcnd.1, List.forall_mem_cons.mpr ⟨hcnd.2, hvall⟩, hve⟩
          · exfalso
            have hr := hm2 v
            rw [if_neg hcnd] at hr
            rw [hr] at hv1
            have := hb v
            omega


/-- The bipartition search succeeds on a graph with empty incidence
lists. -/
theorem findBipartition_edgeless (g : CMRGraph)
    (h : ∀ node, CMRgraphInc g node = []) : (findBipartition g).2 = true := by
  simp only [findBipartition]
  have hstep : ∀ (n : Nat) (acc : (List Bool × List Int) × Bool),
      acc.2 = true →
      ((List.range n).foldl
        (fun (acc : (List Bool × List Int) × Bool) source =>
          if acc.2 = false then acc
          else if acc.1.1.getD source false = true then acc
          else dfsBipartite g (g.numNodes + 1) source (acc.1.1, acc.1.2.set source 0))
        acc).2 = true := by
    intro n
    induction n with
    | zero =>
      intro acc ha
      simpa using ha
    | succ k ihn =>
      intro acc ha
      rw [List.range_succ, List.foldl_concat]
      have h2 := ihn acc ha
      beta_reduce
      rw [if_neg (by rw [h2]; simp)]
      split
      · exact h2
      · rw [dfsBipartite, h k]
        simp
  exact hstep g.numNodes
    ((List.replicate g.numNodes false, List.replicate g.numNodes 0), true) rfl

/-- With no nonzero columns the auxiliary graph has no edges at all. -/
theorem buildAuxiliaryGraph_nil_inc (g : CMRGraph) (ce : List Nat)
    (comps : List (Option Nat)) (nc : Nat) :
    ∀ node, CMRgraphInc (buildAuxiliaryGraph g ce [] comps nc) node = [] := by
  intro node
  have hslots : ((List.range nc).foldl (fun gg _ => (CMRgraphAddNode gg).1)
      emptyGraph).edgeSlots = [] := by
    induction nc with
    | zero => rfl
    | succ k ihn =>
      rw [List.range_succ, List.foldl_concat]
      simp only [CMRgraphAddNode]
      exact ihn
  simp only [buildAuxiliaryGraph, List.foldl_nil, CMRgraphInc, hslots]
  simp


/-- Claim C1: the general one-row handler reports graphic if and only if
the graph with the 1-edges disabled has at least one articulation point,
exactly one articulation point lies on the pruned tree path of every
1-edge, and for the unique surviving candidate the auxiliary component
graph (one node per component after removing that candidate and the
1-edges, one edge per 1-edge between the components of its endpoints) is
bipartite. -/
theorem addToGraph1Row_characterization
    (g : CMRGraph) (re ce : List Nat) (bR bC : Nat) (nzc : List Nat)
    (isG : Bool) (g2 : CMRGraph) (re2 ce2 : List Nat)
    (hres : addToGraph1Row g re ce bR bC nzc = some (isG, g2, re2, ce2)) :
    isG = true ↔
      (0 < (List.range g.numNodes).countP
          (fun v => (findArticulationPoints g ce nzc).getD v 0 ≠ 0) ∧
       (List.range g.numNodes).countP
          (fun v => decide ((findArticulationPoints g ce nzc).getD v 0 ≠ 0) &&
            decide (∀ p ∈ rowPaths g re ce bR nzc, v ∈ p)) = 1 ∧
       ∀ v : Nat, (findArticulationPoints g ce nzc).getD v 0 ≠ 0 →
         (∀ p ∈ rowPaths g re ce bR nzc, v ∈ p) →
         (findBipartition (buildAuxiliaryGraph g ce nzc
            (findComponents g ce (v : Int) nzc).1
            (findComponents g ce (v : Int) nzc).2)).2 = true) := by
  obtain ⟨hlen0, hvals0⟩ := findArticulationPoints_spec g ce nzc
  have hbound : ∀ v, (findArticulationPoints g ce nzc).getD v 0 ≤ 0 + 1 := by
    intro v
    rcases hvals0 v with h | h
    · rw [h]; omega
    · rw [h]
  have hcount : (List.range g.numNodes).countP
      (fun v => (findArticulationPoints g ce nzc).getD v 0 ≠ 0) =
      (List.range (findArticulationPoints g ce nzc).length).countP
        (fun v => decide ((findArticulationPoints g ce nzc).getD v 0 = 0 + 1)) := by
    rw [hlen0]
    refine List.countP_congr (fun v _ => ?_)
    simp only [decide_eq_true_eq, Nat.zero_add]
    constructor
    · intro hne
      rcases hvals0 v with h | h
      · exact absurd h hne
      · exact h
    · intro h1
      rw [h1]
      omega
  obtain ⟨hml1, hml2, hml3⟩ := markLoop_spec
    (rowPaths g re ce bR nzc)
    0 (findArticulationPoints g ce nzc)
    ((List.range g.numNodes).countP
      (fun v => (findArticulationPoints g ce nzc).getD v 0 ≠ 0))
    (-1) hbound hcount
  have hcong : (List.range g.numNodes).countP
      (fun v => decide ((findArticulationPoints g ce nzc).getD v 0 = 0 + 1) &&
        decide (∀ p ∈ rowPaths g re ce bR nzc, v ∈ p)) =
      (List.range g.numNodes).countP
        (fun v => decide ((findArticulationPoints g ce nzc).getD v 0 ≠ 0) &&
          decide (∀ p ∈ rowPaths g re ce bR nzc, v ∈ p)) := by
    refine List.countP_congr (fun v _ => ?_)
    have hd : decide ((findArticulationPoints g ce nzc).getD v 0 = 0 + 1) =
        decide ((findArticulationPoints g ce nzc).getD v 0 ≠ 0) := by
      refine decide_eq_decide.mpr ?_
      simp only [Nat.zero_add]
      constructor
      · intro h1
        rw [h1]
        omega
      · intro hne
        rcases hvals0 v with h | h
        · exact absurd h hne
        · exact h
    rw [hd]
  have hsurv := hml1
  rw [hlen0, hcong] at hsurv
  simp only [addToGraph1Row] at hres
  have hrw : rowPaths g re ce bR nzc = nzc.map (fun c =>
      prunedPathNodes (findTreeParents g re bR) (bR + 1)
        (CMRgraphEdgeU g (ce.getD c 0))
        (CMRgraphEdgeV g (ce.getD c 0))) := rfl
  rw [← hrw] at hres
  split at hres
  · exact absurd hres (by simp)
  · split at hres
    · split at hres
      · split at hres
        · exact absurd hres (by simp)
        · split at hres
          · rename_i hcnt hone hcomp hbip
            simp only [Option.some.injEq, Prod.mk.injEq] at hres
            rw [← hres.1]
            refine ⟨fun _ => ⟨hcnt, hsurv.symm.trans hone, ?_⟩, fun _ => rfl⟩
            intro v hv hvall
            by_cases hnz : nzc = []
            · subst hnz
              exact findBipartition_edgeless _ (buildAuxiliaryGraph_nil_inc g ce _ _)
            · have hpne : rowPaths g re ce bR nzc ≠ [] := by
                simp [rowPaths, hnz]
              obtain ⟨v0, hv01, hv0all, hv0e⟩ := hml3 hpne (by rw [hone]; omega)
              have hv0nz : (findArticulationPoints g ce nzc).getD v0 0 ≠ 0 := by
                rw [hv01]
                omega
              have hveq : v = v0 := by
                refine countP_eq_one_unique (hsurv.symm.trans hone)
                  (List.mem_range.mpr ?_) (List.mem_range.mpr ?_) ?_ ?_
                · exact hlen0 ▸ getD_pos_lt _ v hv
                · exact hlen0 ▸ getD_pos_lt _ v0 hv0nz
                · rw [Bool.and_eq_true, decide_eq_true_eq, decide_eq_true_eq]
                  exact ⟨hv, hvall⟩
                · rw [Bool.and_eq_true, decide_eq_true_eq, decide_eq_true_eq]
                  exact ⟨hv0nz, hv0all⟩
              rw [hveq]
              rw [hv0e] at hbip
              exact hbip
          · rename_i hcnt hone hcomp hbip
            simp only [Option.some.injEq, Prod.mk.injEq] at hres
            rw [← hres.1]
            refine ⟨fun h => absurd h (by simp), fun hrhs => ?_⟩
            exfalso
            obtain ⟨h1, h2, h3⟩ := hrhs
            by_cases hnz : nzc = []
            · subst hnz
              exact hbip (findBipartition_edgeless _ (buildAuxiliaryGraph_nil_inc g ce _ _))
            · have hpne : rowPaths g re ce bR nzc ≠ [] := by
                simp [rowPaths, hnz]
              obtain ⟨v0, hv01, hv0all, hv0e⟩ := hml3 hpne (by rw [hone]; omega)
              have hv0nz : (findArticulationPoints g ce nzc).getD v0 0 ≠ 0 := by
                rw [hv01]
                omega
              have hb0 := h3 v0 hv0nz hv0all
              rw [hv0e] at hbip
              exact hbip hb0
      · rename_i hcnt hone
        simp only [Option.some.injEq, Prod.mk.injEq] at hres
        rw [← hres.1]
        refine ⟨fun h => absurd h (by simp), fun hrhs => ?_⟩
        exact absurd (hsurv.trans hrhs.2.1) hone
    · rename_i hcnt
      simp only [Option.some.injEq, Prod.mk.injEq] at hres
      rw [← hres.1]
      refine ⟨fun h => absurd h (by simp), fun hrhs => ?_⟩
      exact absurd hrhs.1 hcnt


/-- Witness for C1: adding a row with nonzero columns 0 and 1 to the
3-wheel succeeds, and the theorem yields the existence of an articulation
point of the wheel with those two rim edges disabled. -/
theorem addToGraph1Row_characterization_witness :
    addToGraph1Row wheelGraph3 [1, 5, 3] [0, 2, 4] 3 3 [0, 1] =
      some (true,
        { numNodes := 5,
          edgeSlots := [some (1, 2), some (2, 4), some (2, 3), some (0, 3),
            some (3, 1), some (0, 1), some (0, 4)],
          freed := [] },
        [1, 5, 3], [0, 2, 4]) ∧
    0 < (List.range wheelGraph3.numNodes).countP
        (fun v => (findArticulationPoints wheelGraph3 [0, 2, 4] [0, 1]).getD v 0 ≠ 0) :=
  ⟨by decide,
    ((addToGraph1Row_characterization wheelGraph3 [1, 5, 3] [0, 2, 4] 3 3 [0, 1]
      true
      { numNodes := 5,
        edgeSlots := [some (1, 2), some (2, 4), some (2, 3), some (0, 3),
          some (3, 1), some (0, 1), some (0, 4)],
        freed := [] }
      [1, 5, 3] [0, 2, 4] (by decide)).mp rfl).1⟩


/-! Claim C6 machinery: the effect of updateHashValues on the major-side
accumulators. -/

/-- One inner pass of updateHashValues folds the weights of the scanned
minors into the major accumulator, touches no other major accumulator,
and preserves both lengths. -/
theorem updateInner_spec (proj : Int → Int) (hv : List Int) (major : Nat) :
    ∀ (mins : List Nat) (q : List Int × List Int),
      major < q.1.length →
      (mins.foldl (fun (q : List Int × List Int) minor =>
          (q.1.set major (proj (q.1.getD major 0 + hv.getD minor 0)),
           q.2.set minor (proj (q.2.getD minor 0 + hv.getD major 0)))) q).1.length =
        q.1.length ∧
      (mins.foldl (fun (q : List Int × List Int) minor =>
          (q.1.set major (proj (q.1.getD major 0 + hv.getD minor 0)),
           q.2.set minor (proj (q.2.getD minor 0 + hv.getD major 0)))) q).2.length =
        q.2.length ∧
      (∀ j, j ≠ major →
        (mins.foldl (fun (q : List Int × List Int) minor =>
            (q.1.set major (proj (q.1.getD major 0 + hv.getD minor 0)),
             q.2.set minor (proj (q.2.getD minor 0 + hv.getD major 0)))) q).1.getD j 0 =
          q.1.getD j 0) ∧
      (mins.foldl (fun (q : List Int × List Int) minor =>
          (q.1.set major (proj (q.1.getD major 0 + hv.getD minor 0)),
           q.2.set minor (proj (q.2.getD minor 0 + hv.getD major 0)))) q).1.getD major 0 =
        mins.foldl (fun h c => proj (h + hv.getD c 0)) (q.1.getD major 0) := by
  intro mins
  induction mins with
  | nil => exact fun q _ => ⟨rfl, rfl, fun j _ => rfl, rfl⟩
  | cons c cs ih =>
    intro q hmaj
    rw [List.foldl_cons, List.foldl_cons]
    obtain ⟨h1, h2, h3, h4⟩ := ih
      (q.1.set major (proj (q.1.getD major 0 + hv.getD c 0)),
       q.2.set c (proj (q.2.getD c 0 + hv.getD major 0)))
      (by simpa using hmaj)
    refine ⟨by simpa using h1, by simpa using h2, fun j hj => ?_, ?_⟩
    · rw [h3 j hj]
      exact getD_set_ne _ _ _ _ _ (fun hh => hj hh.symm)
    · rw [h4]
      congr 1
      exact getD_set_self _ _ _ _ hmaj

/-- The outer pass of updateHashValues: majors outside the range keep
their accumulator, and a major inside the range folds the weights of its
scanned minors on top of its previous accumulator. -/
theorem updateFold_spec (proj : Int → Int) (m : CMR_CHRMAT) (hv : List Int)
    (minorSize : Nat) :
    ∀ (len first : Nat) (p : List Int × List Int),
      (∀ j, first ≤ j → j < first + len → j < p.1.length) →
      ((List.range' first len).foldl
        (fun (p : List Int × List Int) major =>
          ((rowEntries m major).takeWhile (fun minor => minor < minorSize)).foldl
            (fun (q : List Int × List Int) minor =>
              (q.1.set major (proj (q.1.getD major 0 + hv.getD minor 0)),
               q.2.set minor (proj (q.2.getD minor 0 + hv.getD major 0)))) p) p).1.length =
        p.1.length ∧
      (∀ j, j < first ∨ first + len ≤ j →
        ((List.range' first len).foldl
          (fun (p : List Int × List Int) major =>
            ((rowEntries m major).takeWhile (fun minor => minor < minorSize)).foldl
              (fun (q : List Int × List Int) minor =>
                (q.1.set major (proj (q.1.getD major 0 + hv.getD minor 0)),
                 q.2.set minor (proj (q.2.getD minor 0 + hv.getD major 0)))) p) p).1.getD j 0 =
          p.1.getD j 0) ∧
      (∀ j, first ≤ j → j < first + len →
        ((List.range' first len).foldl
          (fun (p : List Int × List Int) major =>
            ((rowEntries m major).takeWhile (fun minor => minor < minorSize)).foldl
              (fun (q : List Int × List Int) minor =>
                (q.1.set major (proj (q.1.getD major 0 + hv.getD minor 0)),
                 q.2.set minor (proj (q.2.getD minor 0 + hv.getD major 0)))) p) p).1.getD j 0 =
          ((rowEntries m j).takeWhile (fun minor => minor < minorSize)).foldl
            (fun h c => proj (h + hv.getD c 0)) (p.1.getD j 0)) := by
  intro len
  induction len with
  | zero =>
    intro first p _
    rw [List.range'_zero]
    exact ⟨rfl, fun j _ => rfl, fun j h1 h2 => absurd h2 (by omega)⟩
  | succ k ihl =>
    intro first p hb
    rw [List.range'_succ, List.foldl_cons]
    obtain ⟨hi1, hi2, hi3, hi4⟩ := updateInner_spec proj hv first
      ((rowEntries m first).takeWhile (fun minor => minor < minorSize)) p
      (hb first (le_refl _) (by omega))
    obtain ⟨ho1, ho2, ho3⟩ := ihl (first + 1) _
      (fun j h1 h2 => by rw [hi1]; exact hb j (by omega) (by omega))
    refine ⟨by rw [ho1, hi1], fun j hj => ?_, fun j h1 h2 => ?_⟩
    · rw [ho2 j (by omega), hi3 j (by omega)]
    · by_cases hjf : j = first
      · subst hjf
        rw [ho2 j (by omega), hi4]
      · rw [ho3 j (by omega) (by omega), hi3 j hjf]


/-- Claim C6: hash-filter soundness.  updateHashValues leaves accumulators
outside the major range untouched and sets a fresh in-range major's
accumulator to the hash of its scanned minor list (the symmetric column
statement is the same theorem applied to the transpose); consequently, for
any processed row whose restricted support equals the queried row's, the
stored accumulator equals the query hash — the hash pre-filter passes the
true match — and findParallel's scan cannot come back empty. -/
theorem updateHashValues_filter_sound
    (proj : Int → Int) (m : CMR_CHRMAT) (mh mnh hv rowHV : List Int)
    (first beyond minorSize : Nat)
    (row r2 numRows numColumns : Nat)
    (hb : ∀ j, first ≤ j → j < beyond → j < mh.length)
    (hs1 : List.Sorted (fun x y => x < y) (rowEntries m row))
    (hs2 : List.Sorted (fun x y => x < y) (rowEntries m r2))
    (hr2 : r2 < numRows)
    (hinv : rowHV.getD r2 0 = hashOfList proj hv (restrictedSupport m r2 numColumns))
    (hsupp : restrictedSupport m row numColumns = restrictedSupport m r2 numColumns)
    (hlen2 : 2 ≤ ((rowEntries m row).takeWhile (fun c => c < numColumns)).length) :
    ((∀ j, j < first ∨ beyond ≤ j →
        (updateHashValues proj m mh mnh hv first beyond minorSize).1.getD j 0 =
          mh.getD j 0) ∧
     (∀ j, first ≤ j → j < beyond → mh.getD j 0 = 0 →
        (updateHashValues proj m mh mnh hv first beyond minorSize).1.getD j 0 =
          hashOfList proj hv
            ((rowEntries m j).takeWhile (fun minor => minor < minorSize)))) ∧
    rowHV.getD r2 0 =
      hashOfList proj hv ((rowEntries m row).takeWhile (fun c => c < numColumns)) ∧
    ∃ e, findParallel proj m row numRows numColumns rowHV hv = some e ∧ e ≠ 0 := by
  have hquery : hashOfList proj hv
      ((rowEntries m row).takeWhile (fun c => c < numColumns)) =
      hashOfList proj hv (restrictedSupport m row numColumns) := by
    rw [takeWhile_eq_filter_sorted numColumns (rowEntries m row) hs1]
    rfl
  have hhash : rowHV.getD r2 0 =
      hashOfList proj hv ((rowEntries m row).takeWhile (fun c => c < numColumns)) := by
    rw [hquery, hsupp]
    exact hinv
  refine ⟨?_, hhash, ?_⟩
  · simp only [updateHashValues]
    obtain ⟨hu1, hu2, hu3⟩ := updateFold_spec proj m hv minorSize (beyond - first)
      first (mh, mnh) (fun j h1 h2 => hb j h1 (by omega))
    constructor
    · intro j hj
      exact hu2 j (by omega)
    · intro j h1 h2 h0
      rw [hu3 j h1 (by omega), h0]
      rfl
  · simp only [findParallel]
    rw [if_neg (by omega), if_neg (by omega)]
    refine ⟨_, rfl, ?_⟩
    intro h0
    have hmiss := findParallelScan_zero m _ _ _ _ _ _ h0 r2 (by omega) (by omega)
    exact hmiss ⟨hhash, lockstep_of_equal_supports numColumns _ _ hs1 hs2 hsupp⟩

/-- Witness for C6: on lockstepMatrix with two processed columns, row 1
queries with restricted support equal to processed row 0; the stored
accumulator 3 equals the query hash and the scan returns row 0's element
-1 rather than 0. -/
theorem updateHashValues_filter_sound_witness :
    2 ≤ ((rowEntries lockstepMatrix 1).takeWhile (fun c => c < 2)).length ∧
    ∃ e, findParallel (fun x => x) lockstepMatrix 1 1 2 [3] [1, 2, 3, 4, 5] =
      some e ∧ e ≠ 0 :=
  ⟨by decide,
    (updateHashValues_filter_sound (fun x => x) lockstepMatrix [0, 0]
      [0, 0, 0, 0, 0] [1, 2, 3, 4, 5] [3] 0 2 2 1 0 1 2
      (fun j _ h2 => by simpa using h2)
      (by decide) (by decide) (by decide) (by decide) (by decide)
      (by decide)).2.2⟩


end CMRGraphic
